import Mathlib

/-!
Verification of the phantom_generator repository: a shallow embedding of the
configuration-validation layer (`mx_us_phantom/config_validation.py`), the
structure geometry and fill layer (`mx_us_phantom/structures.py`), and the
scatterer generator (`mx_us_phantom/phantom.py`), together with theorems
settling the specification claims.

Modelling conventions:
* Python numbers (ints and floats) are modelled by `ℤ` / `ℚ` (exact
  arithmetic; the float claims at issue involve only +, *, /, comparisons
  and clamping, whose qualitative behaviour is that of the rationals).
* The complex scatterer amplitudes stored in the phantom grid are modelled
  by `ℚ` with `|·|` as magnitude: every property examined here (which cells
  a fill touches, multiplicativity of the gain, the clamp formula applied
  to the magnitude of the updated cell) is insensitive to the choice of
  amplitude domain.
* A Python dict-based configuration is modelled by a record whose fields
  are `Option`-valued when the corresponding key may be absent; `cfg.get(k,
  d)` becomes `Option.getD`.  Configurations that supply an input image
  (`image_path` non-empty) exercise filesystem code and are outside the
  embedding; every claim at issue concerns non-image configurations.
* Logging (`ut.log_message`) and the `warnings` module are side effects
  with no influence on the values computed; a raised warning is modelled
  as a returned `Bool` flag.
-/

namespace Phantom

/-! ### Configuration records (the dict keys the code reads) -/

/-- One entry of the `structures` list of the configuration.  The source
reads the fields of the JSON object by key (`region["type"]`,
`region["scat_gain"]`, and the geometry keys of the region kind); a field
irrelevant to a region kind is simply never read. -/
structure Region where
  type : String
  scat_gain : ℚ
  center_xy : ℤ × ℤ := (0, 0)
  radius : ℤ := 0
  top_left_corner_xy : ℤ × ℤ := (0, 0)
  length_x : ℤ := 0
  length_y : ℤ := 0
  vertices_xy : List (ℤ × ℤ) := []
  coordinates_xy : List (ℤ × ℤ) := []
  center_xyz : ℤ × ℤ × ℤ := (0, 0, 0)

/-- The parsed configuration dict (non-image mode).  `Option` marks keys
that may be absent from the file. -/
structure Config where
  rows_y : Option ℤ := none
  cols_x : Option ℤ := none
  depth_z : Option ℤ := none
  distribution : Option String := none
  perc_of_scatterers : Option ℚ := none
  phantom_format : Option String := none
  sound_speed_c0_m_per_s : Option ℚ := none
  density_rho0_kg_per_m3 : Option ℚ := none
  structures : List Region := []

/-! ### `config_validation.check_parameters_are_present` (lines 12-48)

The source appends one message per missing key to `error_msg` and raises
iff the final message is non-empty; the model returns the message, so
"raises" = "result is non-empty". -/

def missing (k : String) : String :=
  "Parameter \"" ++ k ++ "\" is missing.\r\n"

def check_parameters_are_present (c : Config) (is_image : Bool) : String :=
  (if !is_image then
      (if c.rows_y = none then missing "rows_y" else "")
        ++ (if c.cols_x = none then missing "cols_x" else "")
    else "")
  ++ (if c.distribution = none then missing "distribution" else "")
  ++ (if c.perc_of_scatterers = none then missing "perc_of_scatterers" else "")
  ++ (match c.phantom_format with
      | none => missing "phantom_format"
      | some f =>
        if f = "k_wave" then
          (if c.sound_speed_c0_m_per_s = none then missing "sound_speed_c0_m_per_s" else "")
            ++ (if c.density_rho0_kg_per_m3 = none then missing "density_rho0_kg_per_m3" else "")
        else "")

/-! ### `config_validation.validate_distribution` (lines 51-72) -/

def supported_distributions : List String := ["uniform", "gaussian", "rayleigh"]

def validate_distribution (distribution : String) : String :=
  if distribution ∉ supported_distributions then
    (("The distribution " ++ distribution ++ " is not supported.\r\n")
        ++ "Supported distributions are:"
      |> fun m => supported_distributions.foldl (fun m d => m ++ " " ++ d) m)
      ++ ".\r\n"
  else ""

/-! ### `config_validation.validate_perc_of_scat` (lines 75-91)

The `Bool` component records whether `warnings.warn_explicit` ran. -/

def validate_perc_of_scat (perc_of_scatterers : ℚ) : String × Bool :=
  if perc_of_scatterers ≤ 0 ∨ perc_of_scatterers > 100 then
    ("Percentage of scatterers should be > 0 and < 100 %\r\n", false)
  else if perc_of_scatterers = 100 then
    ("", true)
  else ("", false)

/-! ### `config_validation.validate_scat_gain` (lines 94-109) -/

def validate_scat_gain (structure_type : String) (scat_gain : ℚ) : String :=
  if scat_gain < 0 then
    "Structure " ++ structure_type
      ++ ": relative amplitude of the scatterers should be >= 0\r\n"
  else ""

/-! ### `config_validation.validate_phantom_format` (lines 112-133) -/

def supported_formats : List String := ["effec_scatterers", "k_wave"]

def validate_phantom_format (phantom_format : String) : String :=
  if phantom_format ∉ supported_formats then
    (("The format " ++ phantom_format ++ " is not supported.\r\n")
        ++ "Supported formats are:"
      |> fun m => supported_formats.foldl (fun m d => m ++ " " ++ d) m)
      ++ ".\r\n"
  else ""

/-- Python's `str.lower()`, for the ASCII keyword strings the configuration
uses: lower-case every character. -/
def lower (s : String) : String := ⟨s.data.map Char.toLower⟩

/-! ### `structures.Point` and `Point.in_polygon` (structures.py lines 13-61) -/

/-- A 2-D point (`structures.Point`).  Coordinates are modelled by `ℚ`. -/
structure Pt where
  x : ℚ
  y : ℚ
deriving DecidableEq, Repr

/-- The toggle condition of `Point.in_polygon` for the edge pair
`(a, b) = (polygon[i], polygon[j])`: the edge straddles the horizontal
line through `p` (`(a.y > p.y) != (b.y > p.y)`) and `p.x` is strictly left
of the edge's x at that height.  Python's short-circuit `and` evaluates
the division only under the straddle test, which forces `b.y ≠ a.y`
there; `ℚ`'s total division takes the same value on the same inputs. -/
def crossQ (p a b : Pt) : Bool :=
  (decide (a.y > p.y) != decide (b.y > p.y))
    && decide (p.x < (b.x - a.x) * (p.y - a.y) / (b.y - a.y) + a.x)

/-- `Point.in_polygon` (structures.py lines 43-61): ray-casting parity test.
The source iterates `i` over the vertex indices with `j` holding the
previous index (`len-1` on the first iteration), toggling `is_inside` when
the crossing test holds for the edge `(polygon[i], polygon[j])`. -/
def Pt.in_polygon (p : Pt) (polygon : List Pt) : Bool :=
  (List.range polygon.length).foldl
    (fun is_inside i =>
      let j := if i = 0 then polygon.length - 1 else i - 1
      if crossQ p (polygon.getD i ⟨0, 0⟩) (polygon.getD j ⟨0, 0⟩) then
        !is_inside
      else is_inside)
    false

/-! ### Grids and `Structure.fill_structure` (structures.py lines 64-142) -/

/-- A 2-D array indexed `grid x y` like the source's `grid[x][y]`. -/
def Grid : Type := ℤ → ℤ → ℚ

/-- Write one cell of a grid. -/
def setCell (g : Grid) (x y : ℤ) (v : ℚ) : Grid :=
  fun a b => if a = x ∧ b = y then v else g a b

/-- The mutable state a fill acts on: `(phantom, sound_speed_map,
density_map)`. -/
def St : Type := Grid × Grid × Grid

/-- `Structure.calculate_scattering_c0` (structures.py lines 98-118):
`c0 = config.get("sound_speed_c0_m_per_s", 1540)`, then
`c0 + 25 + 75*amplitude` capped above at 1600 and below at 1400, in that
order. -/
def calculate_scattering_c0 (amplitude : ℚ) (config : Config) : ℚ :=
  let c0 := config.sound_speed_c0_m_per_s.getD 1540
  let scattering_c0 := c0 + 25 + 75 * amplitude
  let scattering_c0 := if scattering_c0 > 1600 then 1600 else scattering_c0
  if scattering_c0 < 1400 then 1400 else scattering_c0

/-- `Structure.fill_structure` (structures.py lines 120-142): multiply the
phantom cell by the gain; if `config["phantom_format"].lower()` is
`"k_wave"`, also write the sound-speed and density maps at that cell from
the magnitude of the updated phantom value.  (A configuration lacking the
`phantom_format` key would raise `KeyError` in the source; every modelled
run carries the key, so the `getD ""` default is never reached.) -/
def fill_structure (st : St) (pos_x pos_y : ℤ) (scat_gain : ℚ)
    (config : Config) : St :=
  let phantom := setCell st.1 pos_x pos_y (st.1 pos_x pos_y * scat_gain)
  let phantom_format := lower (config.phantom_format.getD "")
  if phantom_format = "k_wave" then
    let scattering_c0 := calculate_scattering_c0 |phantom pos_x pos_y| config
    (phantom, setCell st.2.1 pos_x pos_y scattering_c0,
      setCell st.2.2 pos_x pos_y (scattering_c0 / 1.5))
  else
    (phantom, st.2.1, st.2.2)

/-- Python's `range(a, b)` over integers, as the list `[a, a+1, ..., b-1]`
(empty when `b ≤ a`). -/
def rangeZ (a b : ℤ) : List ℤ :=
  (List.range (b - a).toNat).map fun (k : ℕ) => a + (k : ℤ)

/-- `Structure.validate` (structures.py lines 80-96), used by `Polygon` and
`SinglePoint`: returns the out-of-bounds message at the first point with
`x ∉ [0, cols-1]` or `y ∉ [0, rows-1]`, and `""` if every point is in
bounds. -/
def structure_validate (origins : List (ℤ × ℤ)) (num_of_rows num_of_cols : ℤ) :
    String :=
  match origins with
  | [] => ""
  | point :: rest =>
    if point.1 < 0 ∨ point.1 > num_of_cols - 1
        ∨ point.2 < 0 ∨ point.2 > num_of_rows - 1 then
      "The defined points are out of bounds of the phantom.\r\n"
    else structure_validate rest num_of_rows num_of_cols

/-! ### `structures.Circle` (lines 145-202) -/

/-- `structures.Circle`: center `(x, y)` and radius. -/
structure Circle where
  center : ℤ × ℤ
  radius : ℤ

/-- `Circle.validate` (structures.py lines 164-180). -/
def Circle.validate (c : Circle) (num_of_rows num_of_cols : ℤ) : String :=
  if c.radius ≤ 0 then
    "Circle radius must be greater than zero"
  else if c.center.2 + c.radius > num_of_rows - 1
      ∨ c.center.1 + c.radius > num_of_cols - 1
      ∨ c.center.1 - c.radius < 0
      ∨ c.center.2 - c.radius < 0 then
    "The defined circle is out of bounds of the phantom.\r\n"
  else ""

/-- `Circle.fill_area` (structures.py lines 182-202): scan the bounding
square `range(cx-r, cx+r) × range(cy-r, cy+r)` and fill each cell whose
squared distance to the center is at most `r²`.  (The `log_message` call
in the loop has no effect on the state.) -/
def Circle.fill_area (c : Circle) (st : St) (scat_gain : ℚ)
    (config : Config) : St :=
  let top_x := c.center.1 - c.radius
  let top_y := c.center.2 - c.radius
  (rangeZ top_x (top_x + 2 * c.radius)).foldl
    (fun st x =>
      (rangeZ top_y (top_y + 2 * c.radius)).foldl
        (fun st y =>
          if (x - c.center.1) ^ 2 + (y - c.center.2) ^ 2 ≤ c.radius ^ 2 then
            fill_structure st x y scat_gain config
          else st)
        st)
    st

/-! ### `structures.Rectangle` (lines 205-261) -/

/-- `structures.Rectangle`: top-left corner, width (`length_x` in the
configuration) and height (`length_y`). -/
structure Rectangle where
  top_left_corner : ℤ × ℤ
  horizontal_length : ℤ
  vertical_length : ℤ

/-- `Rectangle.validate` (structures.py lines 227-244). -/
def Rectangle.validate (r : Rectangle) (num_of_rows num_of_cols : ℤ) : String :=
  if r.horizontal_length ≤ 0 ∨ r.vertical_length ≤ 0 then
    "Rectangle dimensions must be greater than zero"
  else if r.top_left_corner.2 + r.vertical_length > num_of_rows - 1
      ∨ r.top_left_corner.1 + r.horizontal_length > num_of_cols - 1
      ∨ r.top_left_corner.1 < 0
      ∨ r.top_left_corner.2 < 0 then
    "The defined rectangle is out of bounds of the phantom.\r\n"
  else ""

/-- `Rectangle.fill_area` (structures.py lines 246-261): fill every cell of
`range(left, left+w) × range(top, top+h)`. -/
def Rectangle.fill_area (r : Rectangle) (st : St) (scat_gain : ℚ)
    (config : Config) : St :=
  (rangeZ r.top_left_corner.1 (r.top_left_corner.1 + r.horizontal_length)).foldl
    (fun st x =>
      (rangeZ r.top_left_corner.2 (r.top_left_corner.2 + r.vertical_length)).foldl
        (fun st y => fill_structure st x y scat_gain config)
        st)
    st

/-! ### `structures.Polygon` (lines 264-302) -/

/-- `structures.Polygon`: the vertex list.  The configuration supplies
integer vertices (Python's `range` over the bounding box requires them). -/
structure Polygon where
  origins : List (ℤ × ℤ)

/-- `Polygon.fill_area` (structures.py lines 269-302): all four bounding
box accumulators start at 0 (so the box is the vertex bounding box joined
with the origin), then every cell of `range(min_x, max_x) ×
range(min_y, max_y)` for which `Point((x, y)).in_polygon(origins)` holds
is filled. -/
def Polygon.fill_area (po : Polygon) (st : St) (scat_gain : ℚ)
    (config : Config) : St :=
  let min_x := po.origins.foldl (fun m point => min point.1 m) 0
  let max_x := po.origins.foldl (fun m point => max point.1 m) 0
  let min_y := po.origins.foldl (fun m point => min point.2 m) 0
  let max_y := po.origins.foldl (fun m point => max point.2 m) 0
  let verts : List Pt := po.origins.map fun q => ⟨(q.1 : ℚ), (q.2 : ℚ)⟩
  (rangeZ min_x max_x).foldl
    (fun st x =>
      (rangeZ min_y max_y).foldl
        (fun st y =>
          if Pt.in_polygon ⟨Int.cast x, Int.cast y⟩ verts then
            fill_structure st x y scat_gain config
          else st)
        st)
    st

/-! ### `structures.SinglePoint` (lines 305-326) -/

/-- `structures.SinglePoint`: a list of points. -/
structure SinglePoint where
  origins : List (ℤ × ℤ)

/-- `SinglePoint.fill_area` (structures.py lines 310-326): for each point,
seed the phantom cell to 1 when it is exactly 0, then apply
`fill_structure` there. -/
def SinglePoint.fill_area (sp : SinglePoint) (st : St) (scat_gain : ℚ)
    (config : Config) : St :=
  sp.origins.foldl
    (fun st point =>
      let st :=
        if st.1 point.1 point.2 = 0 then
          (setCell st.1 point.1 point.2 1, st.2.1, st.2.2)
        else st
      fill_structure st point.1 point.2 scat_gain config)
    st

/-! ### `structures.Sphere` (lines 366-425) -/

/-- `structures.Sphere`: center `(x, y, z)` and radius. -/
structure Sphere where
  center : ℤ × ℤ × ℤ
  radius : ℤ

/-- `Sphere.validate` (structures.py lines 385-402). -/
def Sphere.validate (s : Sphere) (num_of_rows num_of_cols num_of_z : ℤ) :
    String :=
  if s.radius ≤ 0 then
    "Sphere radius must be greater than zero"
  else if s.center.2.1 + s.radius > num_of_rows - 1
      ∨ s.center.1 + s.radius > num_of_cols - 1
      ∨ s.center.2.2 + s.radius > num_of_z - 1
      ∨ s.center.1 < s.radius
      ∨ s.center.2.1 < s.radius
      ∨ s.center.2.2 < s.radius then
    "The defined sphere is out of bounds of the phantom.\r\n"
  else ""

/-! ### `config_validation.validate_structures` (lines 136-186)

Note the source's unsupported-type branch *assigns* to `error_msg`
(`error_msg = 'The structure of type ' + ...`) where every other branch
appends, so it discards whatever the accumulator held. -/

def supported_structures : List String :=
  ["circle", "rectangle", "free_polygon", "points", "sphere"]

def validate_structures (structures : List Region)
    (num_of_rows num_of_cols num_of_z : ℤ) : String :=
  structures.foldl
    (fun error_msg region =>
      let region_type := lower region.type
      if region_type ∉ supported_structures then
        (("The structure of type " ++ region_type ++ " is not supported.\r\n")
            ++ "Supported structures are:")
          |> fun m => supported_structures.foldl (fun m s => m ++ " " ++ s) m
      else
        let error_msg := error_msg ++ validate_scat_gain region.type region.scat_gain
        if region_type = "circle" then
          error_msg ++ (Circle.mk region.center_xy region.radius).validate
            num_of_rows num_of_cols
        else if region_type = "rectangle" then
          error_msg ++ (Rectangle.mk region.top_left_corner_xy region.length_x
            region.length_y).validate num_of_rows num_of_cols
        else if region_type = "free_polygon" then
          error_msg ++ structure_validate region.vertices_xy num_of_rows num_of_cols
        else if region_type = "points" then
          error_msg ++ structure_validate region.coordinates_xy num_of_rows num_of_cols
        else if region_type = "sphere" then
          error_msg ++ (Sphere.mk region.center_xyz region.radius).validate
            num_of_rows num_of_cols num_of_z
        else error_msg)
    ""

/-! ### `config_validation.validate_configuration` (lines 189-239), non-image
path (`image_path` absent, so `configuration.get("image_path", "") == ""`).
A raise from `check_parameters_are_present` becomes `Except.error`; the
`getD` defaults below are never reached when the check has passed, because
the check requires exactly those keys in non-image mode. -/

def validate_configuration (configuration : Config) : Except String String :=
  let chk := check_parameters_are_present configuration false
  if chk ≠ "" then
    .error ("One of more parameters is missing in the configuration file.\r\n" ++ chk)
  else
    let error_msg := validate_distribution (lower (configuration.distribution.getD ""))
    let error_msg := error_msg
      ++ (validate_perc_of_scat (configuration.perc_of_scatterers.getD 0)).1
    let phantom_format := lower (configuration.phantom_format.getD "")
    let error_msg := error_msg ++ validate_phantom_format phantom_format
    let rows := configuration.rows_y.getD 0
    let cols := configuration.cols_x.getD 0
    let num_of_z := configuration.depth_z.getD 1
    let error_msg := error_msg
      ++ (if num_of_z > 1 ∧ phantom_format = "effec_scatterers" then
            "effec_scatterers only supports 2-D phantoms\r\n"
          else "")
    .ok (error_msg ++ validate_structures configuration.structures rows cols num_of_z)

/-! ### `Phantom.generate_phantom_matrix` baselines (phantom.py lines 89-95)

`self.c0 = config.get("sound_speed_c0_m_per_s", 1540)` and
`self.rho0 = config.get("density_rho0_kg_per_m3", 1000)`; the sound-speed
and density maps are created filled with these values. -/

def c0_of (config : Config) : ℚ := config.sound_speed_c0_m_per_s.getD 1540

def rho0_of (config : Config) : ℚ := config.density_rho0_kg_per_m3.getD 1000

/-! ### `Phantom.generate_scatterers`, coordinate normalization
(phantom.py lines 137-166)

Per axis the source draws `k` uniforms and then runs
`x = x - np.amin(x); m = np.amax(abs(x)); x = x/m; m = np.amax(abs(x));
x = (np.around((extent - 1)*(x/m))).astype(int)`. -/

/-- `np.amin` of a nonempty vector. -/
def amin : List ℚ → ℚ
  | [] => 0
  | a :: l => l.foldl min a

/-- `np.amax` of a nonempty vector. -/
def amax : List ℚ → ℚ
  | [] => 0
  | a :: l => l.foldl max a

/-- `np.around`: round half to even (banker's rounding), as NumPy does. -/
def around (q : ℚ) : ℤ :=
  if q - ⌊q⌋ < 1 / 2 then ⌊q⌋
  else if 1 / 2 < q - ⌊q⌋ then ⌊q⌋ + 1
  else if Even ⌊q⌋ then ⌊q⌋ else ⌊q⌋ + 1

/-- One axis of `Phantom.generate_scatterers` (phantom.py lines 156-160 for
x, 162-166 for y): shift the draws so the minimum is 0, divide by the new
maximum of the absolute values, take the maximum again, and round
`(extent-1)` times each rescaled value to an integer index.  When every
draw is equal the shifted maximum is 0 and NumPy's division produces NaN,
whose integer conversion is undefined; that failure is modelled as
`none`. -/
def generate_scatterer_axis (draws : List ℚ) (extent : ℤ) : Option (List ℤ) :=
  let x := draws.map (fun v => v - amin draws)
  let max_x := amax (x.map (fun v => |v|))
  if max_x = 0 then none
  else
    let x := x.map (fun v => v / max_x)
    let max_x2 := amax (x.map (fun v => |v|))
    some (x.map fun v => around ((extent - 1 : ℚ) * (v / max_x2)))

/-! ## Claim C9: classification of the scatterer percentage -/

/-- **C9** (confirmed).  `validate_perc_of_scat` classifies exactly as the
spec says: a value of exactly 100 yields a warning and no error text,
every value `≤ 0` or `> 100` yields an error, and every value strictly
between 0 and 100 yields neither warning nor error. -/
theorem c9_perc_classification (p : ℚ) :
    (p = 100 → validate_perc_of_scat p = ("", true))
    ∧ ((p ≤ 0 ∨ 100 < p) → (validate_perc_of_scat p).1 ≠ "")
    ∧ (0 < p → p < 100 → validate_perc_of_scat p = ("", false)) := by
  refine ⟨fun h => ?_, fun h => ?_, fun h1 h2 => ?_⟩
  · subst h
    rfl
  · rw [validate_perc_of_scat, if_pos (by rcases h with h | h <;> [left; right] <;> linarith)]
    simp
  · rw [validate_perc_of_scat, if_neg (by push_neg; constructor <;> linarith),
      if_neg (by linarith)]

/-- Witness for C9 at the concrete inputs 100, 150 and 50. -/
theorem c9_perc_classification_witness :
    validate_perc_of_scat 100 = ("", true)
    ∧ (validate_perc_of_scat 150).1 ≠ ""
    ∧ validate_perc_of_scat 50 = ("", false) :=
  ⟨(c9_perc_classification 100).1 rfl,
   (c9_perc_classification 150).2.1 (Or.inr (by norm_num)),
   (c9_perc_classification 50).2.2 (by norm_num) (by norm_num)⟩

/-! ## Claim C6: the k_wave per-cell map update -/

/-- `calculate_scattering_c0`'s two sequential caps equal the clamp of the
affine expression to `[1400, 1600]`. -/
theorem calculate_scattering_c0_eq_clamp (a : ℚ) (cfg : Config) :
    calculate_scattering_c0 a cfg
      = max 1400 (min 1600 (cfg.sound_speed_c0_m_per_s.getD 1540 + 25 + 75 * a)) := by
  unfold calculate_scattering_c0
  dsimp only
  set v := cfg.sound_speed_c0_m_per_s.getD 1540 + 25 + 75 * a with hv
  split_ifs with h1 h2 h3 <;>
    rw [max_def, min_def] <;> split_ifs <;> norm_num <;> linarith

/-- **C6** (confirmed).  For the cell `(x, y)` touched by `fill_structure`
with gain `g`: writing `a` for the magnitude of the new field value
`st.1 x y * g` and `c0` for the configured baseline sound speed, if the
phantom format lower-cases to `"k_wave"` the sound-speed map at the cell
becomes `clamp(c0 + 25 + 75*a, 1400, 1600)` and the density map becomes
that value divided by 1.5; for any other format both maps are returned
unchanged. -/
theorem c6_fill_structure_maps (st : St) (x y : ℤ) (g : ℚ) (cfg : Config)
    (fmt : String) (hf : cfg.phantom_format = some fmt) :
    (lower fmt = "k_wave" →
      (fill_structure st x y g cfg).2.1 x y
          = max 1400 (min 1600 (c0_of cfg + 25 + 75 * |st.1 x y * g|))
        ∧ (fill_structure st x y g cfg).2.2 x y
          = max 1400 (min 1600 (c0_of cfg + 25 + 75 * |st.1 x y * g|)) / 1.5)
    ∧ (lower fmt ≠ "k_wave" →
      (fill_structure st x y g cfg).2.1 = st.2.1
        ∧ (fill_structure st x y g cfg).2.2 = st.2.2) := by
  have hcell : setCell st.1 x y (st.1 x y * g) x y = st.1 x y * g := by
    simp [setCell]
  constructor
  · intro hk
    rw [fill_structure]
    simp only [hf, Option.getD_some, hk, if_pos rfl]
    rw [hcell, calculate_scattering_c0_eq_clamp]
    constructor <;> simp [setCell, c0_of]
  · intro hk
    rw [fill_structure]
    simp only [hf, Option.getD_some]
    rw [if_neg hk]
    exact ⟨rfl, rfl⟩

/-- Witness for C6: a concrete cell under the `k_wave` format (baseline
defaulted to 1540, so the clamp caps `1540 + 25 + 75` at 1600), and the
same cell under `effec_scatterers`. -/
theorem c6_fill_structure_maps_witness :
    ((fill_structure (fun _ _ => 1, fun _ _ => 1540, fun _ _ => 1000) 0 0 1
        { phantom_format := some "k_wave" }).2.1 0 0
      = max 1400 (min 1600 (c0_of { phantom_format := some "k_wave" } + 25 + 75 * |(1 : ℚ) * 1|)))
    ∧ ((fill_structure (fun _ _ => 1, fun _ _ => 1540, fun _ _ => 1000) 0 0 1
        { phantom_format := some "effec_scatterers" }).2.1
      = fun _ _ => (1540 : ℚ)) :=
  ⟨((c6_fill_structure_maps (fun _ _ => 1, fun _ _ => 1540, fun _ _ => 1000) 0 0 1
      { phantom_format := some "k_wave" } "k_wave" rfl).1 (by decide)).1,
   ((c6_fill_structure_maps (fun _ _ => 1, fun _ _ => 1540, fun _ _ => 1000) 0 0 1
      { phantom_format := some "effec_scatterers" } "effec_scatterers" rfl).2 (by decide)).1⟩

/-! ## Claim C4: optionality of the baseline sound-speed and density keys -/

/-- A configuration with `phantom_format` exactly `"k_wave"` that omits the
two baseline keys (the repository's own
`test_k_wave_parameters_missing__errors_detected` input, without its
structures). -/
def kwMissingCfg : Config :=
  { rows_y := some 512, cols_x := some 512, distribution := some "rayleigh",
    perc_of_scatterers := some 50, phantom_format := some "k_wave" }

/-- **C4 counterexample.**  The claim says the baseline keys are optional
for *every* configuration, including one with k_wave output format.  The
code disagrees: with `phantom_format = "k_wave"` and both keys absent,
`check_parameters_are_present` produces the two missing-parameter messages
(i.e. raises), and `validate_configuration` raises accordingly. -/
theorem c4_counterexample :
    check_parameters_are_present kwMissingCfg false
      = missing "sound_speed_c0_m_per_s" ++ missing "density_rho0_kg_per_m3"
    ∧ check_parameters_are_present kwMissingCfg false ≠ ""
    ∧ validate_configuration kwMissingCfg
      = .error ("One of more parameters is missing in the configuration file.\r\n"
          ++ (missing "sound_speed_c0_m_per_s" ++ missing "density_rho0_kg_per_m3")) := by
  exact ⟨rfl, by decide, rfl⟩

/-- **C4 amended** (proved).  The baseline keys are optional for every
configuration whose `phantom_format` is not the exact string `"k_wave"`
(in particular for `"effec_scatterers"`, and for mere case variants of
`"k_wave"`): with the other required keys present, the required-parameter
check passes whatever the two baseline fields hold, and generation uses
the defaults 1540 m/s and 1000 kg/m³ when they are absent.  When
`phantom_format` is exactly `"k_wave"`, the code instead requires both
keys (see the counterexample). -/
theorem c4_baseline_keys_optional (c : Config) (f : String)
    (hr : c.rows_y ≠ none) (hc : c.cols_x ≠ none)
    (hd : c.distribution ≠ none) (hp : c.perc_of_scatterers ≠ none)
    (hf : c.phantom_format = some f) (hne : f ≠ "k_wave") :
    check_parameters_are_present c false = ""
    ∧ (c.sound_speed_c0_m_per_s = none → c0_of c = 1540)
    ∧ (c.density_rho0_kg_per_m3 = none → rho0_of c = 1000) := by
  refine ⟨?_, fun h => by rw [c0_of, h]; rfl, fun h => by rw [rho0_of, h]; rfl⟩
  rw [check_parameters_are_present, hf]
  simp [hr, hc, hd, hp, hne]

/-- A concrete `effec_scatterers` configuration omitting both baseline
keys. -/
def effecNoBaselineCfg : Config :=
  { rows_y := some 512, cols_x := some 512, distribution := some "uniform",
    perc_of_scatterers := some 50, phantom_format := some "effec_scatterers" }

/-- Witness for C4 at `effecNoBaselineCfg`. -/
theorem c4_baseline_keys_optional_witness :
    check_parameters_are_present effecNoBaselineCfg false = ""
    ∧ c0_of effecNoBaselineCfg = 1540 :=
  ⟨(c4_baseline_keys_optional effecNoBaselineCfg "effec_scatterers" (by decide) (by decide)
      (by decide) (by decide) rfl (by decide)).1,
   (c4_baseline_keys_optional effecNoBaselineCfg "effec_scatterers" (by decide) (by decide)
      (by decide) (by decide) rfl (by decide)).2.1 rfl⟩

/-! ## Claim C10: case-sensitivity mismatch around `"k_wave"` -/

/-- A configuration whose `phantom_format` differs from `"k_wave"` only in
letter case and which omits both baseline keys. -/
def kwCaseCfg : Config :=
  { rows_y := some 8, cols_x := some 8, distribution := some "uniform",
    perc_of_scatterers := some 50, phantom_format := some "K_wave" }

/-- **C10** (confirmed).  `check_parameters_are_present` compares
`phantom_format` case-sensitively to `"k_wave"` while format validation
and the fill compare the lower-cased string.  For the concrete
configuration with `phantom_format = "K_wave"` and no baseline keys:
the required-parameter check passes, the whole validation returns an
empty report, yet `fill_structure` takes the k_wave branch and writes the
maps from the defaults 1540 / 1000 (so `1540 + 25 + 75` clamps to 1600,
and the density cell becomes `1600 / 1.5`). -/
theorem c10_case_sensitive_kwave_check :
    "K_wave" ≠ "k_wave"
    ∧ lower "K_wave" = "k_wave"
    ∧ check_parameters_are_present kwCaseCfg false = ""
    ∧ validate_configuration kwCaseCfg = .ok ""
    ∧ c0_of kwCaseCfg = 1540
    ∧ rho0_of kwCaseCfg = 1000
    ∧ (fill_structure (fun _ _ => 1, fun _ _ => 1540, fun _ _ => 1000)
        0 0 1 kwCaseCfg).2.1 0 0 = 1600
    ∧ (fill_structure (fun _ _ => 1, fun _ _ => 1540, fun _ _ => 1000)
        0 0 1 kwCaseCfg).2.2 0 0 = 1600 / 1.5 := by
  have hfmt : lower (kwCaseCfg.phantom_format.getD "") = "k_wave" := by decide
  refine ⟨by decide, by decide, by decide, rfl, by decide, by decide, ?_, ?_⟩
  · rw [fill_structure]
    dsimp only
    rw [if_pos hfmt]
    dsimp only
    rw [calculate_scattering_c0_eq_clamp]
    norm_num [setCell, kwCaseCfg]
  · rw [fill_structure]
    dsimp only
    rw [if_pos hfmt]
    dsimp only
    rw [calculate_scattering_c0_eq_clamp]
    norm_num [setCell, kwCaseCfg]

/-! ## Fill footprints

Each `fill_area` is a nested `foldl` over the scanned box; the lemmas
below rewrite it as a single fold of `fill_structure` over the list of
cells the fill actually touches (reads and writes), and characterize the
phantom component of such a fold. -/

/-- Fold `fill_structure` over an explicit list of cells. -/
def fillCells (cells : List (ℤ × ℤ)) (st : St) (scat_gain : ℚ)
    (config : Config) : St :=
  cells.foldl (fun st q => fill_structure st q.1 q.2 scat_gain config) st

/-- All `(x, y)` pairs of the nested scan, x-major like the loops. -/
def allPairs (xs ys : List ℤ) : List (ℤ × ℤ) :=
  xs.flatMap fun x => ys.map fun y => (x, y)

theorem foldl_if_filter {α β : Type} (p : α → Prop) [DecidablePred p]
    (f : β → α → β) (l : List α) (b : β) :
    l.foldl (fun acc a => if p a then f acc a else acc) b
      = (l.filter (fun a => decide (p a))).foldl f b := by
  induction l generalizing b with
  | nil => rfl
  | cons a l ih => by_cases h : p a <;> simp [List.filter_cons, h, ih]

theorem foldl_if_filterB {α β : Type} (p : α → Bool) (f : β → α → β)
    (l : List α) (b : β) :
    l.foldl (fun acc a => if p a then f acc a else acc) b
      = (l.filter p).foldl f b := by
  induction l generalizing b with
  | nil => rfl
  | cons a l ih => by_cases h : p a <;> simp [List.filter_cons, h, ih]

theorem foldl_nested {α β γ : Type} (xs : List α) (ys : α → List β)
    (f : γ → α × β → γ) (init : γ) :
    xs.foldl (fun acc x => (ys x).foldl (fun acc y => f acc (x, y)) acc) init
      = (xs.flatMap fun x => (ys x).map fun y => (x, y)).foldl f init := by
  induction xs generalizing init with
  | nil => rfl
  | cons x xs ih => simp [List.foldl_append, List.foldl_map, ih]

/-- The phantom component of `fill_structure` does not depend on the
format branch. -/
theorem fill_structure_phantom (st : St) (a b : ℤ) (g : ℚ) (cfg : Config) :
    (fill_structure st a b g cfg).1 = setCell st.1 a b (st.1 a b * g) := by
  rw [fill_structure]
  dsimp only
  split_ifs <;> rfl

/-- After folding `fill_structure` over a cell list, each phantom cell
holds its old value times `gain ^ (number of occurrences in the list)`. -/
theorem fillCells_phantom (cells : List (ℤ × ℤ)) (st : St) (g : ℚ)
    (cfg : Config) (x y : ℤ) :
    (fillCells cells st g cfg).1 x y
      = st.1 x y * g ^ (cells.count (x, y)) := by
  induction cells generalizing st with
  | nil => simp [fillCells]
  | cons q qs ih =>
    have step : fillCells (q :: qs) st g cfg
        = fillCells qs (fill_structure st q.1 q.2 g cfg) g cfg := rfl
    rw [step, ih, fill_structure_phantom, List.count_cons]
    by_cases hq : q = (x, y)
    · have hx : x = q.1 := by rw [hq]
      have hy : y = q.2 := by rw [hq]
      rw [setCell, if_pos ⟨hx, hy⟩, hq]
      simp [pow_succ]
      ring
    · have hne : ¬(x = q.1 ∧ y = q.2) := by
        intro ⟨h1, h2⟩
        exact hq (Prod.ext_iff.mpr ⟨h1.symm, h2.symm⟩)
      rw [setCell, if_neg hne]
      simp [beq_iff_eq, hq]

/-- Membership in Python's integer `range`. -/
theorem mem_rangeZ {lo hi a : ℤ} : a ∈ rangeZ lo hi ↔ lo ≤ a ∧ a < hi := by
  simp only [rangeZ, List.mem_map, List.mem_range]
  constructor
  · rintro ⟨k, hk, rfl⟩
    omega
  · intro h
    exact ⟨(a - lo).toNat, by omega, by omega⟩

theorem rangeZ_nodup (lo hi : ℤ) : (rangeZ lo hi).Nodup :=
  List.Nodup.map (fun a b h => by omega) (List.nodup_range _)

theorem mem_allPairs {xs ys : List ℤ} {q : ℤ × ℤ} :
    q ∈ allPairs xs ys ↔ q.1 ∈ xs ∧ q.2 ∈ ys := by
  rcases q with ⟨a, b⟩
  simp only [allPairs, List.mem_flatMap, List.mem_map, Prod.mk.injEq]
  constructor
  · rintro ⟨x, hx, y, hy, rfl, rfl⟩
    exact ⟨hx, hy⟩
  · intro ⟨ha, hb⟩
    exact ⟨a, ha, b, hb, rfl, rfl⟩

theorem allPairs_nodup {xs ys : List ℤ} (hx : xs.Nodup) (hy : ys.Nodup) :
    (allPairs xs ys).Nodup := by
  rw [allPairs, List.nodup_flatMap]
  refine ⟨fun x _ => hy.map fun a b h => by injection h, ?_⟩
  refine hx.imp ?_
  intro a b hab
  intro s hsa hsb
  simp only [List.mem_map] at hsa hsb
  obtain ⟨y1, _, rfl⟩ := hsa
  obtain ⟨y2, _, h⟩ := hsb
  injection h with h1 _
  exact hab h1.symm

/-- A member of a list without duplicates is counted exactly once. -/
theorem count_eq_one_of_nodup {l : List (ℤ × ℤ)} {q : ℤ × ℤ}
    (hn : l.Nodup) (hq : q ∈ l) : l.count q = 1 := by
  induction l with
  | nil => cases hq
  | cons a l ih =>
    obtain ⟨ha, hl⟩ := List.nodup_cons.mp hn
    rw [List.count_cons]
    rcases List.mem_cons.mp hq with h | h
    · subst h
      rw [List.count_eq_zero.mpr ha]
      simp
    · have hne : q ≠ a := fun e => ha (e ▸ h)
      rw [ih hl h]
      simp [hne, Ne.symm hne]

/-! ### The cell lists of the three area fills -/

/-- The cells `Circle.fill_area` touches: the half-open bounding square
restricted to squared distance at most `r²`. -/
def Circle.cells (c : Circle) : List (ℤ × ℤ) :=
  (allPairs (rangeZ (c.center.1 - c.radius) (c.center.1 - c.radius + 2 * c.radius))
      (rangeZ (c.center.2 - c.radius) (c.center.2 - c.radius + 2 * c.radius))).filter
    fun q => decide ((q.1 - c.center.1) ^ 2 + (q.2 - c.center.2) ^ 2 ≤ c.radius ^ 2)

/-- The cells `Rectangle.fill_area` touches. -/
def Rectangle.cells (r : Rectangle) : List (ℤ × ℤ) :=
  allPairs (rangeZ r.top_left_corner.1 (r.top_left_corner.1 + r.horizontal_length))
    (rangeZ r.top_left_corner.2 (r.top_left_corner.2 + r.vertical_length))

/-- The cells `Polygon.fill_area` touches: the scanned box (vertex
bounding box joined with the origin, per the zero-initialized
accumulators) restricted to `in_polygon`. -/
def Polygon.cells (po : Polygon) : List (ℤ × ℤ) :=
  (allPairs
      (rangeZ (po.origins.foldl (fun m point => min point.1 m) 0)
        (po.origins.foldl (fun m point => max point.1 m) 0))
      (rangeZ (po.origins.foldl (fun m point => min point.2 m) 0)
        (po.origins.foldl (fun m point => max point.2 m) 0))).filter
    fun q => Pt.in_polygon ⟨Int.cast q.1, Int.cast q.2⟩
      (po.origins.map fun v => ⟨Int.cast v.1, Int.cast v.2⟩)

theorem circle_fill_area_eq_fillCells (c : Circle) (st : St) (g : ℚ)
    (cfg : Config) : c.fill_area st g cfg = fillCells c.cells st g cfg := by
  rw [Circle.fill_area, Circle.cells, fillCells]
  rw [foldl_nested _ _
    (fun acc q => if (q.1 - c.center.1) ^ 2 + (q.2 - c.center.2) ^ 2 ≤ c.radius ^ 2
      then fill_structure acc q.1 q.2 g cfg else acc)]
  rw [foldl_if_filter
    (fun q : ℤ × ℤ => (q.1 - c.center.1) ^ 2 + (q.2 - c.center.2) ^ 2 ≤ c.radius ^ 2)
    (fun acc q => fill_structure acc q.1 q.2 g cfg)]
  rfl

theorem rectangle_fill_area_eq_fillCells (r : Rectangle) (st : St) (g : ℚ)
    (cfg : Config) : r.fill_area st g cfg = fillCells r.cells st g cfg := by
  rw [Rectangle.fill_area, Rectangle.cells, fillCells]
  rw [foldl_nested _ _ (fun acc q => fill_structure acc q.1 q.2 g cfg)]
  rfl

theorem polygon_fill_area_eq_fillCells (po : Polygon) (st : St) (g : ℚ)
    (cfg : Config) : po.fill_area st g cfg = fillCells po.cells st g cfg := by
  rw [Polygon.fill_area, Polygon.cells, fillCells]
  rw [foldl_nested _ _
    (fun acc q => if Pt.in_polygon ⟨Int.cast q.1, Int.cast q.2⟩
        (po.origins.map fun v => ⟨Int.cast v.1, Int.cast v.2⟩) = true
      then fill_structure acc q.1 q.2 g cfg else acc)]
  rw [foldl_if_filterB
    (fun q : ℤ × ℤ => Pt.in_polygon ⟨Int.cast q.1, Int.cast q.2⟩
        (po.origins.map fun v => ⟨Int.cast v.1, Int.cast v.2⟩))
    (fun acc q => fill_structure acc q.1 q.2 g cfg)]
  rfl

theorem circle_cells_nodup (c : Circle) : c.cells.Nodup :=
  (allPairs_nodup (rangeZ_nodup _ _) (rangeZ_nodup _ _)).filter _

theorem rectangle_cells_nodup (r : Rectangle) : r.cells.Nodup :=
  allPairs_nodup (rangeZ_nodup _ _) (rangeZ_nodup _ _)

theorem polygon_cells_nodup (po : Polygon) : po.cells.Nodup :=
  (allPairs_nodup (rangeZ_nodup _ _) (rangeZ_nodup _ _)).filter _

theorem circle_mem_cells {c : Circle} {x y : ℤ} :
    (x, y) ∈ c.cells ↔
      c.center.1 - c.radius ≤ x ∧ x < c.center.1 + c.radius
        ∧ c.center.2 - c.radius ≤ y ∧ y < c.center.2 + c.radius
        ∧ (x - c.center.1) ^ 2 + (y - c.center.2) ^ 2 ≤ c.radius ^ 2 := by
  rw [Circle.cells, List.mem_filter, mem_allPairs]
  simp only [mem_rangeZ, decide_eq_true_eq]
  constructor
  · rintro ⟨⟨⟨h1, h2⟩, h3, h4⟩, h5⟩
    exact ⟨h1, by omega, h3, by omega, h5⟩
  · rintro ⟨h1, h2, h3, h4, h5⟩
    exact ⟨⟨⟨h1, by omega⟩, h3, by omega⟩, h5⟩

theorem rectangle_mem_cells {r : Rectangle} {x y : ℤ} :
    (x, y) ∈ r.cells ↔
      r.top_left_corner.1 ≤ x ∧ x < r.top_left_corner.1 + r.horizontal_length
        ∧ r.top_left_corner.2 ≤ y ∧ y < r.top_left_corner.2 + r.vertical_length := by
  rw [Rectangle.cells, mem_allPairs]
  simp only [mem_rangeZ]
  constructor
  · rintro ⟨⟨h1, h2⟩, h3, h4⟩
    exact ⟨h1, h2, h3, h4⟩
  · rintro ⟨h1, h2, h3, h4⟩
    exact ⟨⟨h1, h2⟩, h3, h4⟩

/-! ### Characterizations of the validators -/

theorem circle_validate_eq_empty_iff (c : Circle) (rows cols : ℤ) :
    c.validate rows cols = "" ↔
      0 < c.radius ∧ c.center.2 + c.radius ≤ rows - 1
        ∧ c.center.1 + c.radius ≤ cols - 1
        ∧ 0 ≤ c.center.1 - c.radius ∧ 0 ≤ c.center.2 - c.radius := by
  rw [Circle.validate]
  split_ifs with h1 h2
  · exact iff_of_false (by decide) (by omega)
  · exact iff_of_false (by decide) (by omega)
  · exact iff_of_true rfl (by omega)

theorem rectangle_validate_eq_empty_iff (r : Rectangle) (rows cols : ℤ) :
    r.validate rows cols = "" ↔
      0 < r.horizontal_length ∧ 0 < r.vertical_length
        ∧ r.top_left_corner.2 + r.vertical_length ≤ rows - 1
        ∧ r.top_left_corner.1 + r.horizontal_length ≤ cols - 1
        ∧ 0 ≤ r.top_left_corner.1 ∧ 0 ≤ r.top_left_corner.2 := by
  rw [Rectangle.validate]
  split_ifs with h1 h2
  · exact iff_of_false (by decide) (by omega)
  · exact iff_of_false (by decide) (by omega)
  · exact iff_of_true rfl (by omega)

theorem structure_validate_eq_empty_iff (pts : List (ℤ × ℤ)) (rows cols : ℤ) :
    structure_validate pts rows cols = "" ↔
      ∀ q ∈ pts, 0 ≤ q.1 ∧ q.1 ≤ cols - 1 ∧ 0 ≤ q.2 ∧ q.2 ≤ rows - 1 := by
  induction pts with
  | nil => simp [structure_validate]
  | cons p rest ih =>
    rw [structure_validate]
    split_ifs with h
    · refine iff_of_false (by decide) (fun hall => ?_)
      have := hall p (List.mem_cons_self _ _)
      omega
    · rw [ih]
      constructor
      · intro hall q hq
        rcases List.mem_cons.mp hq with rfl | hq
        · omega
        · exact hall q hq
      · intro hall q hq
        exact hall q (List.mem_cons_of_mem _ hq)

/-! ## Claim C2: the circle fill footprint -/

/-- **C2** (confirmed).  For a valid circle (`radius ≥ 1`, inside the
grid), `fill_area` multiplies by the gain exactly the integer cells of the
half-open bounding square `[cx-r, cx+r) × [cy-r, cy+r)` whose squared
distance to the center is at most `r²`, and leaves every other phantom
cell untouched; and the circle with center `(10, 8)` and radius 5, valid
on a 20×20 field, touches exactly 79 cells. -/
theorem c2_circle_fill_footprint (rows cols : ℤ) (c : Circle) (st : St)
    (g : ℚ) (cfg : Config) (_hr : 1 ≤ c.radius)
    (_hv : c.validate rows cols = "") :
    (∀ x y : ℤ,
      (c.fill_area st g cfg).1 x y =
        if c.center.1 - c.radius ≤ x ∧ x < c.center.1 + c.radius
            ∧ c.center.2 - c.radius ≤ y ∧ y < c.center.2 + c.radius
            ∧ (x - c.center.1) ^ 2 + (y - c.center.2) ^ 2 ≤ c.radius ^ 2
        then st.1 x y * g else st.1 x y)
    ∧ (Circle.mk (10, 8) 5).validate 20 20 = ""
    ∧ (Circle.mk (10, 8) 5).cells.length = 79 := by
  refine ⟨fun x y => ?_, by decide, by decide⟩
  rw [circle_fill_area_eq_fillCells, fillCells_phantom]
  by_cases hmem : (x, y) ∈ c.cells
  · rw [count_eq_one_of_nodup (circle_cells_nodup c) hmem, if_pos (circle_mem_cells.mp hmem)]
    ring
  · rw [List.count_eq_zero.mpr hmem, if_neg (fun h => hmem (circle_mem_cells.mpr h))]
    ring

/-- Witness for C2 at the circle of the repository's own fill test. -/
theorem c2_circle_fill_footprint_witness :
    (Circle.mk (10, 8) 5).cells.length = 79 :=
  (c2_circle_fill_footprint 20 20 (Circle.mk (10, 8) 5)
    (fun _ _ => 1, fun _ _ => 1, fun _ _ => 1) 7
    { phantom_format := some "effec_scatterers" } (by decide) (by decide)).2.2

/-! ## Claim C7: validated fills stay inside the grids -/

/-- Bound the zero-initialized `min` accumulator from below. -/
theorem foldl_min_ge (f : ℤ × ℤ → ℤ) (l : List (ℤ × ℤ)) (acc bnd : ℤ)
    (ha : bnd ≤ acc) (h : ∀ v ∈ l, bnd ≤ f v) :
    bnd ≤ l.foldl (fun m p => min (f p) m) acc := by
  induction l generalizing acc with
  | nil => exact ha
  | cons p l ih =>
    exact ih _ (le_min (h p (List.mem_cons_self _ _)) ha)
      (fun v hv => h v (List.mem_cons_of_mem _ hv))

/-- Bound the zero-initialized `max` accumulator from above. -/
theorem foldl_max_le (f : ℤ × ℤ → ℤ) (l : List (ℤ × ℤ)) (acc bnd : ℤ)
    (ha : acc ≤ bnd) (h : ∀ v ∈ l, f v ≤ bnd) :
    l.foldl (fun m p => max (f p) m) acc ≤ bnd := by
  induction l generalizing acc with
  | nil => exact ha
  | cons p l ih =>
    exact ih _ (max_le (h p (List.mem_cons_self _ _)) ha)
      (fun v hv => h v (List.mem_cons_of_mem _ hv))

/-- **C7** (confirmed).  Whenever a region's `validate` against
`rows × cols` returns no error, every index pair its fill reads or writes
satisfies `0 ≤ x ≤ cols-1` and `0 ≤ y ≤ rows-1`.  Each area fill equals
the fold of `fill_structure` over its cell list (so the cell list is
exactly the set of grid indices accessed), and under the respective
validator those cells are in bounds; `SinglePoint.fill_area` folds over
its `origins` directly. -/
theorem c7_validated_fill_in_bounds (rows cols : ℤ) :
    (∀ (c : Circle) (st : St) (g : ℚ) (cfg : Config),
      c.fill_area st g cfg = fillCells c.cells st g cfg
        ∧ (c.validate rows cols = "" →
            ∀ q ∈ c.cells, 0 ≤ q.1 ∧ q.1 ≤ cols - 1 ∧ 0 ≤ q.2 ∧ q.2 ≤ rows - 1))
    ∧ (∀ (r : Rectangle) (st : St) (g : ℚ) (cfg : Config),
      r.fill_area st g cfg = fillCells r.cells st g cfg
        ∧ (r.validate rows cols = "" →
            ∀ q ∈ r.cells, 0 ≤ q.1 ∧ q.1 ≤ cols - 1 ∧ 0 ≤ q.2 ∧ q.2 ≤ rows - 1))
    ∧ (∀ (po : Polygon) (st : St) (g : ℚ) (cfg : Config),
      po.fill_area st g cfg = fillCells po.cells st g cfg
        ∧ (structure_validate po.origins rows cols = "" →
            ∀ q ∈ po.cells, 0 ≤ q.1 ∧ q.1 ≤ cols - 1 ∧ 0 ≤ q.2 ∧ q.2 ≤ rows - 1))
    ∧ (∀ sp : SinglePoint,
        structure_validate sp.origins rows cols = "" →
          ∀ q ∈ sp.origins, 0 ≤ q.1 ∧ q.1 ≤ cols - 1 ∧ 0 ≤ q.2 ∧ q.2 ≤ rows - 1) := by
  refine ⟨fun c st g cfg => ⟨circle_fill_area_eq_fillCells c st g cfg, fun hv q hq => ?_⟩,
    fun r st g cfg => ⟨rectangle_fill_area_eq_fillCells r st g cfg, fun hv q hq => ?_⟩,
    fun po st g cfg => ⟨polygon_fill_area_eq_fillCells po st g cfg, fun hv q hq => ?_⟩,
    fun sp hv q hq => (structure_validate_eq_empty_iff _ _ _).mp hv q hq⟩
  · have hb := (circle_validate_eq_empty_iff c rows cols).mp hv
    rcases q with ⟨x, y⟩
    have := circle_mem_cells.mp hq
    dsimp only
    omega
  · have hb := (rectangle_validate_eq_empty_iff r rows cols).mp hv
    rcases q with ⟨x, y⟩
    have := rectangle_mem_cells.mp hq
    dsimp only
    omega
  · have hb := (structure_validate_eq_empty_iff po.origins rows cols).mp hv
    have hq2 := (List.mem_filter.mp hq).1
    rw [mem_allPairs] at hq2
    obtain ⟨hqx, hqy⟩ := hq2
    rw [mem_rangeZ] at hqx hqy
    rcases h0 : po.origins with _ | ⟨v, rest⟩
    · rw [Polygon.cells, h0] at hq
      simp [allPairs, rangeZ] at hq
    · have hv0 : v ∈ po.origins := by rw [h0]; exact (List.mem_cons_self _ _)
      have hvb := hb v hv0
      have hminx : (0 : ℤ) ≤ po.origins.foldl (fun m point => min point.1 m) 0 :=
        foldl_min_ge _ _ _ _ le_rfl (fun w hw => (hb w hw).1)
      have hmaxx : po.origins.foldl (fun m point => max point.1 m) 0 ≤ cols - 1 :=
        foldl_max_le _ _ _ _ (by omega) (fun w hw => (hb w hw).2.1)
      have hminy : (0 : ℤ) ≤ po.origins.foldl (fun m point => min point.2 m) 0 :=
        foldl_min_ge _ _ _ _ le_rfl (fun w hw => (hb w hw).2.2.1)
      have hmaxy : po.origins.foldl (fun m point => max point.2 m) 0 ≤ rows - 1 :=
        foldl_max_le _ _ _ _ (by omega) (fun w hw => (hb w hw).2.2.2)
      omega

/-- Witness for C7: the in-bounds conclusion at a concrete validated
circle, rectangle, polygon cell and point. -/
theorem c7_validated_fill_in_bounds_witness :
    (0 ≤ (20 : ℤ) ∧ (20 : ℤ) ≤ 128 - 1 ∧ 0 ≤ (30 : ℤ) ∧ (30 : ℤ) ≤ 64 - 1)
    ∧ (0 ≤ (50 : ℤ) ∧ (50 : ℤ) ≤ 128 - 1 ∧ 0 ≤ (12 : ℤ) ∧ (12 : ℤ) ≤ 64 - 1) :=
  ⟨((c7_validated_fill_in_bounds 64 128).1 (Circle.mk (20, 30) 10)
      (fun _ _ => 1, fun _ _ => 1, fun _ _ => 1) 3
      { phantom_format := some "effec_scatterers" }).2 (by decide) (20, 30) (by decide),
   ((c7_validated_fill_in_bounds 64 128).2.1 (Rectangle.mk (50, 10) 20 30)
      (fun _ _ => 1, fun _ _ => 1, fun _ _ => 1) 4
      { phantom_format := some "effec_scatterers" }).2 (by decide) (50, 12) (by decide)⟩

/-! ## Claim C8: a second fill compounds the gain -/

theorem fillCells_twice_phantom {cells : List (ℤ × ℤ)} (hn : cells.Nodup)
    {x y : ℤ} (hmem : (x, y) ∈ cells) (st : St) (g : ℚ) (cfg : Config) :
    (fillCells cells (fillCells cells st g cfg) g cfg).1 x y
        = (fillCells cells st g cfg).1 x y * g
      ∧ (fillCells cells (fillCells cells st g cfg) g cfg).1 x y
        = st.1 x y * (g * g) := by
  have h1 := fillCells_phantom cells st g cfg x y
  have h2 := fillCells_phantom cells (fillCells cells st g cfg) g cfg x y
  rw [count_eq_one_of_nodup hn hmem] at h1 h2
  rw [h2, h1]
  constructor <;> ring

/-- **C8** (confirmed).  Invoking the same region's fill twice is not a
no-op: for Circle, Rectangle and Polygon fills, every cell of the
footprint ends with an additional factor of the gain compared with one
fill, i.e. two fills multiply the original field value by the gain
squared. -/
theorem c8_fill_twice_compounds_gain (st : St) (g : ℚ) (cfg : Config)
    (x y : ℤ) :
    (∀ c : Circle, (x, y) ∈ c.cells →
      (c.fill_area (c.fill_area st g cfg) g cfg).1 x y
          = (c.fill_area st g cfg).1 x y * g
        ∧ (c.fill_area (c.fill_area st g cfg) g cfg).1 x y
          = st.1 x y * (g * g))
    ∧ (∀ r : Rectangle, (x, y) ∈ r.cells →
      (r.fill_area (r.fill_area st g cfg) g cfg).1 x y
          = (r.fill_area st g cfg).1 x y * g
        ∧ (r.fill_area (r.fill_area st g cfg) g cfg).1 x y
          = st.1 x y * (g * g))
    ∧ (∀ po : Polygon, (x, y) ∈ po.cells →
      (po.fill_area (po.fill_area st g cfg) g cfg).1 x y
          = (po.fill_area st g cfg).1 x y * g
        ∧ (po.fill_area (po.fill_area st g cfg) g cfg).1 x y
          = st.1 x y * (g * g)) := by
  refine ⟨fun c hmem => ?_, fun r hmem => ?_, fun po hmem => ?_⟩
  · simp only [circle_fill_area_eq_fillCells]
    exact fillCells_twice_phantom (circle_cells_nodup c) hmem st g cfg
  · simp only [rectangle_fill_area_eq_fillCells]
    exact fillCells_twice_phantom (rectangle_cells_nodup r) hmem st g cfg
  · simp only [polygon_fill_area_eq_fillCells]
    exact fillCells_twice_phantom (polygon_cells_nodup po) hmem st g cfg

/-- Witness for C8 at a concrete radius-1 circle and its center cell. -/
theorem c8_fill_twice_compounds_gain_witness :
    ((Circle.mk (2, 2) 1).fill_area
        ((Circle.mk (2, 2) 1).fill_area
          (fun _ _ => 1, fun _ _ => 1, fun _ _ => 1) 7
          { phantom_format := some "effec_scatterers" }) 7
        { phantom_format := some "effec_scatterers" }).1 2 2
      = ((Circle.mk (2, 2) 1).fill_area
          (fun _ _ => 1, fun _ _ => 1, fun _ _ => 1) 7
          { phantom_format := some "effec_scatterers" }).1 2 2 * 7 :=
  ((c8_fill_twice_compounds_gain
      (fun _ _ => 1, fun _ _ => 1, fun _ _ => 1) 7
      { phantom_format := some "effec_scatterers" } 2 2).1
    (Circle.mk (2, 2) 1) (by decide)).1

/-! ## Claim C3: the two-pass normalization of scatterer coordinates -/

theorem foldl_min_le_acc (l : List ℚ) (acc : ℚ) : l.foldl min acc ≤ acc := by
  induction l generalizing acc with
  | nil => exact le_refl acc
  | cons x l ih => exact (ih (min acc x)).trans (min_le_left _ _)

theorem foldl_min_le_mem (l : List ℚ) (acc : ℚ) : ∀ a ∈ l, l.foldl min acc ≤ a := by
  induction l generalizing acc with
  | nil => intro a ha; cases ha
  | cons x l ih =>
    intro a ha
    rcases List.mem_cons.mp ha with rfl | ha
    · exact (foldl_min_le_acc l (min acc a)).trans (min_le_right _ _)
    · exact ih _ a ha

theorem foldl_min_mem (l : List ℚ) (acc : ℚ) :
    l.foldl min acc = acc ∨ l.foldl min acc ∈ l := by
  induction l generalizing acc with
  | nil => exact Or.inl rfl
  | cons x l ih =>
    rcases ih (min acc x) with h | h
    · rcases min_choice acc x with hm | hm
      · exact Or.inl (by rw [List.foldl_cons, h, hm])
      · exact Or.inr (by rw [List.foldl_cons, h, hm]; exact (List.mem_cons_self _ _))
    · exact Or.inr (List.mem_cons_of_mem _ h)

theorem acc_le_foldl_max (l : List ℚ) (acc : ℚ) : acc ≤ l.foldl max acc := by
  induction l generalizing acc with
  | nil => exact le_refl acc
  | cons x l ih => exact (le_max_left _ _).trans (ih (max acc x))

theorem mem_le_foldl_max (l : List ℚ) (acc : ℚ) : ∀ a ∈ l, a ≤ l.foldl max acc := by
  induction l generalizing acc with
  | nil => intro a ha; cases ha
  | cons x l ih =>
    intro a ha
    rcases List.mem_cons.mp ha with rfl | ha
    · exact (le_max_right _ _).trans (acc_le_foldl_max l (max acc a))
    · exact ih _ a ha

theorem foldl_max_mem (l : List ℚ) (acc : ℚ) :
    l.foldl max acc = acc ∨ l.foldl max acc ∈ l := by
  induction l generalizing acc with
  | nil => exact Or.inl rfl
  | cons x l ih =>
    rcases ih (max acc x) with h | h
    · rcases max_choice acc x with hm | hm
      · exact Or.inl (by rw [List.foldl_cons, h, hm])
      · exact Or.inr (by rw [List.foldl_cons, h, hm]; exact (List.mem_cons_self _ _))
    · exact Or.inr (List.mem_cons_of_mem _ h)

theorem amin_le {l : List ℚ} {a : ℚ} (h : a ∈ l) : amin l ≤ a := by
  cases l with
  | nil => cases h
  | cons x xs =>
    rcases List.mem_cons.mp h with rfl | h
    · exact foldl_min_le_acc xs a
    · exact foldl_min_le_mem xs x a h

theorem le_amax {l : List ℚ} {a : ℚ} (h : a ∈ l) : a ≤ amax l := by
  cases l with
  | nil => cases h
  | cons x xs =>
    rcases List.mem_cons.mp h with rfl | h
    · exact acc_le_foldl_max xs a
    · exact mem_le_foldl_max xs x a h

theorem amin_mem {l : List ℚ} (h : l ≠ []) : amin l ∈ l := by
  cases l with
  | nil => exact absurd rfl h
  | cons x xs =>
    rcases foldl_min_mem xs x with h2 | h2
    · rw [amin, h2]; exact (List.mem_cons_self _ _)
    · rw [amin]; exact List.mem_cons_of_mem _ h2

theorem amax_mem {l : List ℚ} (h : l ≠ []) : amax l ∈ l := by
  cases l with
  | nil => exact absurd rfl h
  | cons x xs =>
    rcases foldl_max_mem xs x with h2 | h2
    · rw [amax, h2]; exact (List.mem_cons_self _ _)
    · rw [amax]; exact List.mem_cons_of_mem _ h2

theorem foldl_max_map_sub (l : List ℚ) (acc c : ℚ) :
    (l.map (fun v => v - c)).foldl max (acc - c) = l.foldl max acc - c := by
  induction l generalizing acc with
  | nil => rfl
  | cons x l ih =>
    simp only [List.map_cons, List.foldl_cons, max_sub_sub_right]
    exact ih (max acc x)

theorem amax_map_sub (l : List ℚ) (c : ℚ) (h : l ≠ []) :
    amax (l.map (fun v => v - c)) = amax l - c := by
  cases l with
  | nil => exact absurd rfl h
  | cons x xs => exact foldl_max_map_sub xs x c

theorem foldl_max_map_div (l : List ℚ) (acc c : ℚ) (hc : 0 ≤ c) :
    (l.map (fun v => v / c)).foldl max (acc / c) = l.foldl max acc / c := by
  induction l generalizing acc with
  | nil => rfl
  | cons x l ih =>
    simp only [List.map_cons, List.foldl_cons, max_div_div_right hc]
    exact ih (max acc x)

theorem amax_map_div (l : List ℚ) (c : ℚ) (hc : 0 ≤ c) (h : l ≠ []) :
    amax (l.map (fun v => v / c)) = amax l / c := by
  cases l with
  | nil => exact absurd rfl h
  | cons x xs => exact foldl_max_map_div xs x c hc

theorem around_zero : around 0 = 0 := by norm_num [around]

theorem around_intCast (n : ℤ) : around (n : ℚ) = n := by
  norm_num [around]

/-- **C3 counterexample.**  The claim quantifies over every scatterer
count `k ≥ 1`.  With `k = 1` (a single draw) the shifted vector is `[0]`,
its maximum is 0, and the source divides 0/0 (NumPy yields NaN, whose
integer conversion is undefined) — the generator does not produce
coordinates hitting index 0 and index `extent-1` at all. -/
theorem c3_counterexample :
    generate_scatterer_axis [1 / 2] 2 = none
    ∧ ¬∃ out, generate_scatterer_axis [1 / 2] 2 = some out
        ∧ (0 : ℤ) ∈ out ∧ (2 - 1 : ℤ) ∈ out := by
  have h : generate_scatterer_axis [1 / 2] 2 = none := by
    rw [generate_scatterer_axis]
    norm_num [amin, amax]
  refine ⟨h, ?_⟩
  rintro ⟨out, hout, -⟩
  rw [h] at hout
  cases hout

/-- **C3 amended** (proved).  For every grid extent and every draw vector
containing at least two distinct values (which holds with probability one
for `k ≥ 2` uniform draws, and never for `k = 1`), the two-pass
normalization succeeds and the rounded coordinates include index 0 and
index `extent-1`. -/
theorem c3_normalization_hits_extremes (draws : List ℚ) (extent : ℤ)
    (a b : ℚ) (ha : a ∈ draws) (hb : b ∈ draws) (hab : a ≠ b) :
    ∃ out, generate_scatterer_axis draws extent = some out
      ∧ (0 : ℤ) ∈ out ∧ extent - 1 ∈ out := by
  have hne : draws ≠ [] := List.ne_nil_of_mem ha
  have hMpos : 0 < amax draws - amin draws := by
    rcases lt_or_gt_of_ne hab with h | h
    · have h1 := amin_le ha
      have h2 := le_amax hb
      linarith
    · have h1 := amin_le hb
      have h2 := le_amax ha
      linarith
  have habs : (draws.map (fun v => v - amin draws)).map (fun v => |v|)
      = draws.map (fun v => v - amin draws) := by
    rw [List.map_map]
    refine List.map_congr_left (fun v hv => ?_)
    have := amin_le hv
    simp only [Function.comp_apply]
    rw [abs_of_nonneg (by linarith)]
  have hmapne : draws.map (fun v => v - amin draws) ≠ [] := by
    intro h
    exact hne (List.map_eq_nil_iff.mp h)
  have hM : amax ((draws.map (fun v => v - amin draws)).map (fun v => |v|))
      = amax draws - amin draws := by
    rw [habs, amax_map_sub _ _ hne]
  have habs2 : ((draws.map (fun v => v - amin draws)).map
        (fun v => v / (amax draws - amin draws))).map (fun v => |v|)
      = (draws.map (fun v => v - amin draws)).map
        (fun v => v / (amax draws - amin draws)) := by
    simp only [List.map_map]
    refine List.map_congr_left (fun v hv => ?_)
    have := amin_le hv
    simp only [Function.comp_apply]
    rw [abs_of_nonneg (div_nonneg (by linarith) hMpos.le)]
  have hM2 : amax (((draws.map (fun v => v - amin draws)).map
        (fun v => v / (amax draws - amin draws))).map (fun v => |v|)) = 1 := by
    rw [habs2, amax_map_div _ _ hMpos.le hmapne, amax_map_sub _ _ hne,
      div_self hMpos.ne.symm]
  rw [generate_scatterer_axis]
  dsimp only
  rw [hM, if_neg hMpos.ne.symm, hM2]
  refine ⟨_, rfl, ?_, ?_⟩
  · rw [List.map_map, List.map_map]
    refine List.mem_map.mpr ⟨amin draws, amin_mem hne, ?_⟩
    simp only [Function.comp_apply, sub_self, zero_div, mul_zero]
    exact around_zero
  · rw [List.map_map, List.map_map]
    refine List.mem_map.mpr ⟨amax draws, amax_mem hne, ?_⟩
    simp only [Function.comp_apply]
    rw [div_self hMpos.ne.symm, div_one, mul_one]
    rw [show ((extent : ℚ) - 1) = ((extent - 1 : ℤ) : ℚ) by push_cast; ring]
    exact around_intCast _

/-- Witness for C3 at the concrete draws `[1/4, 3/4]` with extent 8. -/
theorem c3_normalization_hits_extremes_witness :
    ∃ out, generate_scatterer_axis [1 / 4, 3 / 4] 8 = some out
      ∧ (0 : ℤ) ∈ out ∧ (8 - 1 : ℤ) ∈ out :=
  c3_normalization_hits_extremes [1 / 4, 3 / 4] 8 (1 / 4) (3 / 4)
    (List.mem_cons_self _ _) (List.mem_cons_of_mem _ (List.mem_cons_self _ _))
    (by norm_num)

/-! ## Claim C1: aggregation of validation errors across regions -/

/-- A circle region with an invalid radius (yields
"Circle radius must be greater than zero"). -/
def badCircleRegion : Region :=
  { type := "circle", scat_gain := 3, center_xy := (20, 30), radius := 0 }

/-- A region of an unsupported type. -/
def blobRegion : Region := { type := "blob", scat_gain := 1 }

/-- **C1 divergence, evaluated.**  The claim (and the spec's
aggregate-then-report policy) says errors already collected from other
regions are still present in the final report when a later entry has an
unsupported type.  The code instead *assigns* the unsupported-type message
to the accumulator (config_validation.py line 156, `error_msg = ...` where
every sibling branch uses `error_msg = error_msg + ...`), discarding the
circle error that the same call reports when the circle is alone. -/
theorem c1_unsupported_type_discards_earlier_errors :
    validate_structures [badCircleRegion] 512 512 1
      = "Circle radius must be greater than zero"
    ∧ validate_structures [badCircleRegion, blobRegion] 512 512 1
      = "The structure of type blob is not supported.\r\n"
        ++ "Supported structures are: circle rectangle free_polygon points sphere" := by
  constructor
  · rw [validate_structures]
    decide
  · rw [validate_structures]
    decide


/-! ## Claim C5: ray casting on convex polygons

The mathematical core works over a cyclic vertex map `v : ZMod n → Pt`.
`edgeSide e f r` is the cross product `(f - e) × (r - e)`: positive iff
`r` lies strictly left of the directed line `e → f`.  A convex polygon is
one whose every vertex lies strictly left of every directed edge (strict
convex position, counter-clockwise); `strictly inside` is `strictly left
of every edge`, `strictly outside` is `strictly right of some edge` — the
usual half-plane description of a convex polygon.  The clockwise variants
flip every sign. -/

def edgeSide (e f r : Pt) : ℚ :=
  (f.x - e.x) * (r.y - e.y) - (f.y - e.y) * (r.x - e.x)

/-- The point `(1-t)·a + t·b` on the segment from `a` to `b`. -/
def comb (t : ℚ) (a b : Pt) : Pt :=
  ⟨(1 - t) * a.x + t * b.x, (1 - t) * a.y + t * b.y⟩

theorem edgeSide_swap (e f r : Pt) : edgeSide f e r = -edgeSide e f r := by
  rw [edgeSide, edgeSide]; ring

theorem edgeSide_comb (e f a b : Pt) (t : ℚ) :
    edgeSide e f (comb t a b) = (1 - t) * edgeSide e f a + t * edgeSide e f b := by
  rw [edgeSide, edgeSide, edgeSide, comb]; ring

theorem edgeSide_comb_self (a b : Pt) (t : ℚ) :
    edgeSide a b (comb t a b) = 0 := by
  rw [edgeSide, comb]; ring

/-- `edgeSide` along a horizontal shift: if `q` and `r` are at the same
height, the side values differ by the height gap of the edge times the
horizontal gap of the points. -/
theorem edgeSide_level (e f q r : Pt) (h : q.y = r.y) :
    edgeSide e f q = edgeSide e f r + (f.y - e.y) * (r.x - q.x) := by
  rw [edgeSide, edgeSide, h]; ring

/-- The triple identity behind the extremal-vertex argument: for a vertex
`m` with neighbours `a` (previous) and `b` (next) and an external point
`p`, the three wedge cross-products weighted by the height gaps cancel. -/
theorem edgeSide_triple (m a b p : Pt) :
    edgeSide m b p * (a.y - m.y) - edgeSide m a p * (b.y - m.y)
      + edgeSide m a b * (p.y - m.y) = 0 := by
  rw [edgeSide, edgeSide, edgeSide]; ring

theorem crossQ_symm (p a b : Pt) : crossQ p a b = crossQ p b a := by
  rw [crossQ, crossQ]
  by_cases hy : a.y = b.y
  · simp [hy]
  · have hline : (b.x - a.x) * (p.y - a.y) / (b.y - a.y) + a.x
        = (a.x - b.x) * (p.y - b.y) / (a.y - b.y) + b.x := by
      have h1 : b.y - a.y ≠ 0 := fun h => hy (by linarith)
      have h2 : a.y - b.y ≠ 0 := fun h => hy (by linarith)
      field_simp
      ring
    rw [hline]
    have hswap : (decide (a.y > p.y) != decide (b.y > p.y))
        = (decide (b.y > p.y) != decide (a.y > p.y)) := by
      rcases Bool.eq_false_or_eq_true (decide (a.y > p.y)) with h1 | h1 <;>
        rcases Bool.eq_false_or_eq_true (decide (b.y > p.y)) with h2 | h2 <;>
          simp [h1, h2]
    rw [hswap]

theorem crossQ_not_straddle (p a b : Pt) (h : (a.y > p.y) ↔ (b.y > p.y)) :
    crossQ p a b = false := by
  rw [crossQ]
  have : decide (a.y > p.y) = decide (b.y > p.y) := decide_eq_decide.mpr h
  simp [this]

theorem crossQ_up (p a b : Pt) (ha : a.y ≤ p.y) (hb : p.y < b.y) :
    crossQ p a b = decide (0 < edgeSide a b p) := by
  rw [crossQ]
  have hd : 0 < b.y - a.y := by linarith
  have hs : (decide (a.y > p.y) != decide (b.y > p.y)) = true := by
    simp only [decide_eq_true_eq, bne_iff_ne, ne_eq, decide_eq_decide]
    intro h
    rw [iff_true_right hb] at h
    linarith
  rw [hs, Bool.true_and]
  apply decide_eq_decide.mpr
  have hne : b.y - a.y ≠ 0 := by intro h; rw [h] at hd; exact lt_irrefl 0 hd
  have hkey : (b.x - a.x) * (p.y - a.y) / (b.y - a.y) + a.x - p.x
      = edgeSide a b p / (b.y - a.y) := by
    rw [edgeSide]
    field_simp
    ring
  constructor
  · intro h
    have h2 : 0 < edgeSide a b p / (b.y - a.y) := by linarith [hkey]
    by_contra h3
    push_neg at h3
    have := div_nonpos_of_nonpos_of_nonneg h3 hd.le
    linarith
  · intro h
    have h2 : 0 < edgeSide a b p / (b.y - a.y) := div_pos h hd
    linarith [hkey]

theorem crossQ_down (p a b : Pt) (ha : p.y < a.y) (hb : b.y ≤ p.y) :
    crossQ p a b = decide (edgeSide a b p < 0) := by
  rw [crossQ]
  have hd : b.y - a.y < 0 := by linarith
  have hs : (decide (a.y > p.y) != decide (b.y > p.y)) = true := by
    simp only [decide_eq_true_eq, bne_iff_ne, ne_eq, decide_eq_decide]
    intro h
    rw [iff_true_left ha] at h
    linarith
  rw [hs, Bool.true_and]
  apply decide_eq_decide.mpr
  have hne : b.y - a.y ≠ 0 := by intro h; rw [h] at hd; exact lt_irrefl 0 hd
  have hkey : (b.x - a.x) * (p.y - a.y) / (b.y - a.y) + a.x - p.x
      = edgeSide a b p / (b.y - a.y) := by
    rw [edgeSide]
    field_simp
    ring
  constructor
  · intro h
    have h2 : 0 < edgeSide a b p / (b.y - a.y) := by linarith [hkey]
    by_contra h3
    push_neg at h3
    have := div_nonpos_of_nonneg_of_nonpos h3 hd.le
    linarith
  · intro h
    have h2 : 0 < edgeSide a b p / (b.y - a.y) := div_pos_of_neg_of_neg h hd
    linarith [hkey]


theorem comb_up_mem (a b : Pt) (c : ℚ) (ha : a.y ≤ c) (hb : c < b.y) :
    0 ≤ (c - a.y) / (b.y - a.y) ∧ (c - a.y) / (b.y - a.y) < 1
      ∧ (comb ((c - a.y) / (b.y - a.y)) a b).y = c := by
  have hd : 0 < b.y - a.y := by linarith
  refine ⟨div_nonneg (by linarith) hd.le, ?_, ?_⟩
  · rw [div_lt_one hd]
    linarith
  · rw [comb]
    dsimp only
    field_simp
    ring

theorem comb_down_mem (a b : Pt) (c : ℚ) (ha : c < a.y) (hb : b.y ≤ c) :
    0 < (c - a.y) / (b.y - a.y) ∧ (c - a.y) / (b.y - a.y) ≤ 1
      ∧ (comb ((c - a.y) / (b.y - a.y)) a b).y = c := by
  have hd : b.y - a.y < 0 := by linarith
  refine ⟨div_pos_of_neg_of_neg (by linarith) hd, ?_, ?_⟩
  · rw [div_le_one_iff]
    exact Or.inr (Or.inr ⟨hd, by linarith⟩)
  · rw [comb]
    dsimp only
    have hne : b.y - a.y ≠ 0 := hd.ne
    field_simp
    ring

/-- Two distinct upward straddling edges of a strictly convex cycle are
impossible: each crosses the horizontal level left of the other. -/
theorem up_up_clash (c : ℚ) (A B C D : Pt)
    (hA : A.y ≤ c) (hB : c < B.y) (hC : C.y ≤ c) (hD : c < D.y)
    (S1 : 0 < edgeSide A B C) (S2 : 0 < edgeSide A B D)
    (S3 : 0 < edgeSide C D A) (S4 : 0 < edgeSide C D B) : False := by
  obtain ⟨ht0, ht1, hQy⟩ := comb_up_mem C D c hC hD
  obtain ⟨hs0, hs1, hPy⟩ := comb_up_mem A B c hA hB
  set t := (c - C.y) / (D.y - C.y) with hts
  set s := (c - A.y) / (B.y - A.y) with hss
  have hQside : 0 < edgeSide A B (comb t C D) := by
    rw [edgeSide_comb]
    have g1 := mul_pos (by linarith : (0 : ℚ) < 1 - t) S1
    have g2 := mul_nonneg ht0 S2.le
    linarith
  have hPside : 0 < edgeSide C D (comb s A B) := by
    rw [edgeSide_comb]
    have g1 := mul_pos (by linarith : (0 : ℚ) < 1 - s) S3
    have g2 := mul_nonneg hs0 S4.le
    linarith
  have hQlev : edgeSide A B (comb t C D)
      = (B.y - A.y) * ((comb s A B).x - (comb t C D).x) := by
    rw [edgeSide_level A B (comb t C D) (comb s A B) (by rw [hQy, hPy]),
      edgeSide_comb_self]
    ring
  have hPlev : edgeSide C D (comb s A B)
      = (D.y - C.y) * ((comb t C D).x - (comb s A B).x) := by
    rw [edgeSide_level C D (comb s A B) (comb t C D) (by rw [hQy, hPy]),
      edgeSide_comb_self]
    ring
  have hdAB : 0 < B.y - A.y := by linarith
  have hdCD : 0 < D.y - C.y := by linarith
  nlinarith [hQside, hPside, hQlev, hPlev, hdAB, hdCD]

/-- Two distinct downward straddling edges of a strictly convex cycle are
impossible. -/
theorem down_down_clash (c : ℚ) (A B C D : Pt)
    (hA : c < A.y) (hB : B.y ≤ c) (hC : c < C.y) (hD : D.y ≤ c)
    (S1 : 0 < edgeSide A B C) (S2 : 0 < edgeSide A B D)
    (S3 : 0 < edgeSide C D A) (S4 : 0 < edgeSide C D B) : False := by
  obtain ⟨ht0, ht1, hQy⟩ := comb_down_mem C D c hC hD
  obtain ⟨hs0, hs1, hPy⟩ := comb_down_mem A B c hA hB
  set t := (c - C.y) / (D.y - C.y) with hts
  set s := (c - A.y) / (B.y - A.y) with hss
  have hQside : 0 < edgeSide A B (comb t C D) := by
    rw [edgeSide_comb]
    have g1 := mul_nonneg (by linarith : (0 : ℚ) ≤ 1 - t) S1.le
    have g2 := mul_pos ht0 S2
    linarith
  have hPside : 0 < edgeSide C D (comb s A B) := by
    rw [edgeSide_comb]
    have g1 := mul_nonneg (by linarith : (0 : ℚ) ≤ 1 - s) S3.le
    have g2 := mul_pos hs0 S4
    linarith
  have hQlev : edgeSide A B (comb t C D)
      = (B.y - A.y) * ((comb s A B).x - (comb t C D).x) := by
    rw [edgeSide_level A B (comb t C D) (comb s A B) (by rw [hQy, hPy]),
      edgeSide_comb_self]
    ring
  have hPlev : edgeSide C D (comb s A B)
      = (D.y - C.y) * ((comb t C D).x - (comb s A B).x) := by
    rw [edgeSide_level C D (comb s A B) (comb t C D) (by rw [hQy, hPy]),
      edgeSide_comb_self]
    ring
  have hdAB : B.y - A.y < 0 := by linarith
  have hdCD : D.y - C.y < 0 := by linarith
  nlinarith [hQside, hPside, hQlev, hPlev, hdAB, hdCD]


/-! ### Convex cycles over `ZMod n` -/

/-- The side value of `p` for the directed edge `v i → v (i+1)`. -/
def sideAt {n : ℕ} (v : ZMod n → Pt) (p : Pt) (i : ZMod n) : ℚ :=
  edgeSide (v i) (v (i + 1)) p

/-- Strict convex position, counter-clockwise: every other vertex lies
strictly left of every directed edge. -/
def convexCCW {n : ℕ} (v : ZMod n → Pt) : Prop :=
  ∀ i j : ZMod n, j ≠ i → j ≠ i + 1 → 0 < edgeSide (v i) (v (i + 1)) (v j)

/-- Strict convex position, clockwise. -/
def convexCW {n : ℕ} (v : ZMod n → Pt) : Prop :=
  ∀ i j : ZMod n, j ≠ i → j ≠ i + 1 → edgeSide (v i) (v (i + 1)) (v j) < 0

/-- The edge `v i → v (i+1)` straddles the level of `p` going up (with the
half-open convention of the code's `(y_i > y) != (y_j > y)` test). -/
def upEdge {n : ℕ} (v : ZMod n → Pt) (p : Pt) (i : ZMod n) : Prop :=
  (v i).y ≤ p.y ∧ p.y < (v (i + 1)).y

/-- The edge `v i → v (i+1)` straddles the level of `p` going down. -/
def downEdge {n : ℕ} (v : ZMod n → Pt) (p : Pt) (i : ZMod n) : Prop :=
  p.y < (v i).y ∧ (v (i + 1)).y ≤ p.y

/-- The number of edges of the cycle whose crossing test fires. -/
def crossCount (n : ℕ) [NeZero n] (v : ZMod n → Pt) (p : Pt) : ℕ :=
  ((Finset.univ : Finset (ZMod n)).filter
    fun i => crossQ p (v i) (v (i + 1)) = true).card

theorem zmod_one_ne_zero {n : ℕ} (h3 : 3 ≤ n) : (1 : ZMod n) ≠ 0 := by
  intro h
  rw [show (1 : ZMod n) = ((1 : ℕ) : ZMod n) by push_cast; rfl,
    ZMod.natCast_zmod_eq_zero_iff_dvd] at h
  exact absurd (Nat.le_of_dvd one_pos h) (by omega)

theorem zmod_two_ne_zero {n : ℕ} (h3 : 3 ≤ n) : (2 : ZMod n) ≠ 0 := by
  intro h
  rw [show (2 : ZMod n) = ((2 : ℕ) : ZMod n) by push_cast; rfl,
    ZMod.natCast_zmod_eq_zero_iff_dvd] at h
  exact absurd (Nat.le_of_dvd two_pos h) (by omega)

theorem upEdge_unique {n : ℕ} (v : ZMod n → Pt) (p : Pt) (h3 : 3 ≤ n)
    (hconv : convexCCW v) {i j : ZMod n}
    (hi : upEdge v p i) (hj : upEdge v p j) : i = j := by
  by_contra hij
  have hji1 : j ≠ i + 1 := fun h => absurd hi.2 (by rw [← h]; exact not_lt.mpr hj.1)
  have hij1 : i ≠ j + 1 := fun h => absurd hj.2 (by rw [← h]; exact not_lt.mpr hi.1)
  exact up_up_clash p.y (v i) (v (i + 1)) (v j) (v (j + 1))
    hi.1 hi.2 hj.1 hj.2
    (hconv i j (fun h => hij h.symm) hji1)
    (hconv i (j + 1) (fun h => hij1 h.symm) (fun h => hij (add_right_cancel h).symm))
    (hconv j i hij hij1)
    (hconv j (i + 1) (fun h => hji1 h.symm) (fun h => hij (add_right_cancel h)))

theorem downEdge_unique {n : ℕ} (v : ZMod n → Pt) (p : Pt) (h3 : 3 ≤ n)
    (hconv : convexCCW v) {i j : ZMod n}
    (hi : downEdge v p i) (hj : downEdge v p j) : i = j := by
  by_contra hij
  have hji1 : j ≠ i + 1 := fun h => absurd hj.1 (by rw [h]; exact not_lt.mpr hi.2)
  have hij1 : i ≠ j + 1 := fun h => absurd hi.1 (by rw [h]; exact not_lt.mpr hj.2)
  exact down_down_clash p.y (v i) (v (i + 1)) (v j) (v (j + 1))
    hi.1 hi.2 hj.1 hj.2
    (hconv i j (fun h => hij h.symm) hji1)
    (hconv i (j + 1) (fun h => hij1 h.symm) (fun h => hij (add_right_cancel h).symm))
    (hconv j i hij hij1)
    (hconv j (i + 1) (fun h => hji1 h.symm) (fun h => hij (add_right_cancel h)))

/-- In a cyclic boolean sequence attaining both values there is a rise. -/
theorem cyclic_exists_rise {n : ℕ} [NeZero n] (b : ZMod n → Prop)
    [DecidablePred b] (hT : ∃ j, b j) (hF : ∃ k, ¬b k) :
    ∃ i, ¬b i ∧ b (i + 1) := by
  by_contra hcon
  push_neg at hcon
  obtain ⟨j, hj⟩ := hT
  obtain ⟨k, hk⟩ := hF
  have hall : ∀ t : ℕ, ¬b (k + (t : ZMod n)) := by
    intro t
    induction t with
    | zero => simpa using hk
    | succ t ih =>
      have h2 := hcon _ ih
      have he : k + ((t + 1 : ℕ) : ZMod n) = k + (t : ZMod n) + 1 := by
        push_cast
        ring
      rw [he]
      exact h2
  have hj2 := hall (j - k).val
  rw [ZMod.natCast_rightInverse (j - k)] at hj2
  have he2 : k + (j - k) = j := by ring
  rw [he2] at hj2
  exact hj2 hj

theorem cyclic_exists_fall {n : ℕ} [NeZero n] (b : ZMod n → Prop)
    [DecidablePred b] (hT : ∃ j, b j) (hF : ∃ k, ¬b k) :
    ∃ i, b i ∧ ¬b (i + 1) := by
  obtain ⟨i, h1, h2⟩ := cyclic_exists_rise (fun i => ¬b i)
    hF (by obtain ⟨j, hj⟩ := hT; exact ⟨j, not_not_intro hj⟩)
  exact ⟨i, not_not.mp h1, h2⟩

/-- At any vertex of a strictly convex cycle seen from a strictly interior
point: the outgoing edge has the point on its left, the reversed incoming
edge on its right, and the wedge of the two neighbours turns right. -/
theorem interior_wedge {n : ℕ} (v : ZMod n → Pt) (p : Pt) (h3 : 3 ≤ n)
    (hconv : convexCCW v) (hin : ∀ i, 0 < sideAt v p i) (M : ZMod n) :
    0 < edgeSide (v M) (v (M + 1)) p
    ∧ edgeSide (v M) (v (M - 1)) p < 0
    ∧ edgeSide (v M) (v (M - 1)) (v (M + 1)) < 0 := by
  have h2 : (2 : ZMod n) ≠ 0 := zmod_two_ne_zero h3
  have h1 : (1 : ZMod n) ≠ 0 := zmod_one_ne_zero h3
  have hMm : M - 1 + 1 = M := by ring
  refine ⟨hin M, ?_, ?_⟩
  · have hprev := hin (M - 1)
    rw [sideAt, hMm] at hprev
    rw [edgeSide_swap (v (M - 1)) (v M) p]
    linarith
  · have hc := hconv (M - 1) (M + 1)
      (fun h => h2 (by linear_combination h))
      (fun h => h1 (by linear_combination h))
    rw [hMm] at hc
    rw [edgeSide_swap (v (M - 1)) (v M) (v (M + 1))]
    linarith

/-- A strictly interior point of a strictly convex cycle has vertices both
strictly above and at-or-below its level. -/
theorem interior_level_between {n : ℕ} [NeZero n] (v : ZMod n → Pt) (p : Pt)
    (h3 : 3 ≤ n) (hconv : convexCCW v) (hin : ∀ i, 0 < sideAt v p i) :
    (∃ i, p.y < (v i).y) ∧ (∃ i, (v i).y ≤ p.y) := by
  constructor
  · by_contra hcon
    push_neg at hcon
    obtain ⟨M, -, hM⟩ := Finset.exists_max_image Finset.univ
      (fun i => (v i).y) ⟨0, Finset.mem_univ 0⟩
    obtain ⟨e1, e2, e3⟩ := interior_wedge v p h3 hconv hin M
    have hid := edgeSide_triple (v M) (v (M - 1)) (v (M + 1)) p
    have hα1 : (v (M - 1)).y - (v M).y ≤ 0 := by
      have := hM (M - 1) (Finset.mem_univ _)
      linarith
    have hα2 : (v (M + 1)).y - (v M).y ≤ 0 := by
      have := hM (M + 1) (Finset.mem_univ _)
      linarith
    have hα3 : 0 ≤ p.y - (v M).y := by
      have := hcon M
      linarith
    have t1 : edgeSide (v M) (v (M + 1)) p * ((v (M - 1)).y - (v M).y) ≤ 0 :=
      mul_nonpos_of_nonneg_of_nonpos e1.le hα1
    have t2 : 0 ≤ edgeSide (v M) (v (M - 1)) p * ((v (M + 1)).y - (v M).y) :=
      mul_nonneg_iff.mpr (Or.inr ⟨e2.le, hα2⟩)
    have t3 : edgeSide (v M) (v (M - 1)) (v (M + 1)) * (p.y - (v M).y) ≤ 0 :=
      mul_nonpos_of_nonpos_of_nonneg e3.le hα3
    have z1 : edgeSide (v M) (v (M + 1)) p * ((v (M - 1)).y - (v M).y) = 0 := by
      linarith
    have z2 : edgeSide (v M) (v (M - 1)) p * ((v (M + 1)).y - (v M).y) = 0 := by
      linarith
    have hay : (v (M - 1)).y - (v M).y = 0 := by
      rcases mul_eq_zero.mp z1 with h | h
      · exact absurd h e1.ne.symm
      · exact h
    have hby : (v (M + 1)).y - (v M).y = 0 := by
      rcases mul_eq_zero.mp z2 with h | h
      · exact absurd h e2.ne
      · exact h
    have hz : edgeSide (v M) (v (M - 1)) (v (M + 1)) = 0 := by
      rw [edgeSide]
      linear_combination ((v (M - 1)).x - (v M).x) * hby
        - ((v (M + 1)).x - (v M).x) * hay
    exact absurd hz e3.ne
  · by_contra hcon
    push_neg at hcon
    obtain ⟨M, -, hM⟩ := Finset.exists_min_image Finset.univ
      (fun i => (v i).y) ⟨0, Finset.mem_univ 0⟩
    obtain ⟨e1, e2, e3⟩ := interior_wedge v p h3 hconv hin M
    have hid := edgeSide_triple (v M) (v (M - 1)) (v (M + 1)) p
    have hα1 : 0 ≤ (v (M - 1)).y - (v M).y := by
      have := hM (M - 1) (Finset.mem_univ _)
      linarith
    have hα2 : 0 ≤ (v (M + 1)).y - (v M).y := by
      have := hM (M + 1) (Finset.mem_univ _)
      linarith
    have hα3 : p.y - (v M).y < 0 := by
      have := hcon M
      linarith
    have t1 : 0 ≤ edgeSide (v M) (v (M + 1)) p * ((v (M - 1)).y - (v M).y) :=
      mul_nonneg e1.le hα1
    have t2 : edgeSide (v M) (v (M - 1)) p * ((v (M + 1)).y - (v M).y) ≤ 0 :=
      mul_nonpos_of_nonpos_of_nonneg e2.le hα2
    have t3 : 0 < edgeSide (v M) (v (M - 1)) (v (M + 1)) * (p.y - (v M).y) :=
      mul_pos_of_neg_of_neg e3 hα3
    linarith

/-- The crossing test fires exactly at upward straddling edges with the
point strictly left, and downward ones with the point strictly right. -/
theorem crossQ_classify {n : ℕ} (v : ZMod n → Pt) (p : Pt) (i : ZMod n) :
    crossQ p (v i) (v (i + 1)) = true ↔
      (upEdge v p i ∧ 0 < sideAt v p i)
      ∨ (downEdge v p i ∧ sideAt v p i < 0) := by
  rcases le_or_lt (v i).y p.y with hi | hi <;>
    rcases le_or_lt (v (i + 1)).y p.y with hj | hj
  · rw [crossQ_not_straddle p (v i) (v (i + 1))
      (iff_of_false (not_lt.mpr hi) (not_lt.mpr hj))]
    constructor
    · intro h
      cases h
    · rintro (⟨⟨-, h⟩, -⟩ | ⟨⟨h, -⟩, -⟩) <;> linarith
  · rw [crossQ_up p (v i) (v (i + 1)) hi hj]
    simp only [decide_eq_true_eq]
    constructor
    · intro h
      exact Or.inl ⟨⟨hi, hj⟩, h⟩
    · rintro (⟨-, h⟩ | ⟨⟨h1, -⟩, -⟩)
      · exact h
      · linarith
  · rw [crossQ_down p (v i) (v (i + 1)) hi hj]
    simp only [decide_eq_true_eq]
    constructor
    · intro h
      exact Or.inr ⟨⟨hi, hj⟩, h⟩
    · rintro (⟨⟨-, h1⟩, -⟩ | ⟨-, h⟩)
      · linarith
      · exact h
  · rw [crossQ_not_straddle p (v i) (v (i + 1))
      (iff_of_true hi hj)]
    constructor
    · intro h
      cases h
    · rintro (⟨⟨h, -⟩, -⟩ | ⟨⟨-, h⟩, -⟩) <;> linarith

/-- A strictly interior point of a strictly convex cycle is crossed by
exactly one edge. -/
theorem crossCount_interior {n : ℕ} [NeZero n] (v : ZMod n → Pt) (p : Pt)
    (h3 : 3 ≤ n) (hconv : convexCCW v) (hin : ∀ i, 0 < sideAt v p i) :
    crossCount n v p = 1 := by
  obtain ⟨hT, hF⟩ := interior_level_between v p h3 hconv hin
  obtain ⟨r, hr1, hr2⟩ := cyclic_exists_rise (fun i => p.y < (v i).y) hT
    (by obtain ⟨k, hk⟩ := hF; exact ⟨k, not_lt.mpr hk⟩)
  have hup : upEdge v p r := ⟨not_lt.mp hr1, hr2⟩
  rw [crossCount, Finset.card_eq_one]
  refine ⟨r, ?_⟩
  ext i
  simp only [Finset.mem_filter, Finset.mem_univ, true_and, Finset.mem_singleton]
  rw [crossQ_classify]
  constructor
  · rintro (⟨hu, -⟩ | ⟨-, hs⟩)
    · exact upEdge_unique v p h3 hconv hu hup
    · exact absurd (hin i) (by linarith)
  · rintro rfl
    exact Or.inl ⟨hup, hin _⟩


theorem edgeSide_fst (e f : Pt) : edgeSide e f e = 0 := by
  rw [edgeSide]; ring

theorem edgeSide_snd (e f : Pt) : edgeSide e f f = 0 := by
  rw [edgeSide]; ring

/-- The side value of a non-horizontal edge equals the edge's height gap
times the horizontal gap from the point to the edge's point at the same
level. -/
theorem side_eq_level (a b p : Pt) (hne : b.y - a.y ≠ 0) :
    edgeSide a b p
      = (b.y - a.y) * ((comb ((p.y - a.y) / (b.y - a.y)) a b).x - p.x) := by
  have hy : (comb ((p.y - a.y) / (b.y - a.y)) a b).y = p.y := by
    rw [comb]
    dsimp only
    field_simp
    ring
  rw [edgeSide_level a b p (comb ((p.y - a.y) / (b.y - a.y)) a b) hy.symm,
    edgeSide_comb_self]
  ring

/-- The slab lemma: if `p` is strictly left of the unique upward
straddling edge and weakly left of the unique downward one, then `p` is
weakly left of *every* edge of the strictly convex cycle. -/
theorem slab_weak_inside {n : ℕ} (v : ZMod n → Pt) (p : Pt) (h3 : 3 ≤ n)
    (hconv : convexCCW v) {r f : ZMod n}
    (hr : upEdge v p r) (hf : downEdge v p f)
    (hsr : 0 < sideAt v p r) (hsf : 0 ≤ sideAt v p f) :
    ∀ i, 0 ≤ sideAt v p i := by
  intro i
  obtain ⟨hs0, hs1, hsy⟩ := comb_up_mem (v r) (v (r + 1)) p.y hr.1 hr.2
  obtain ⟨ht0, ht1, hty⟩ := comb_down_mem (v f) (v (f + 1)) p.y hf.1 hf.2
  have hdAB : 0 < (v (r + 1)).y - (v r).y := by
    have := hr.1; have := hr.2; linarith
  have hdCD : (v (f + 1)).y - (v f).y < 0 := by
    have := hf.1; have := hf.2; linarith
  have hPr : 0 < (comb ((p.y - (v r).y) / ((v (r + 1)).y - (v r).y))
      (v r) (v (r + 1))).x - p.x := by
    have h := side_eq_level (v r) (v (r + 1)) p hdAB.ne.symm
    rw [sideAt] at hsr
    rcases mul_pos_iff.mp (h ▸ hsr) with ⟨-, hx⟩ | ⟨hneg, -⟩
    · exact hx
    · linarith
  have hPf : (comb ((p.y - (v f).y) / ((v (f + 1)).y - (v f).y))
      (v f) (v (f + 1))).x - p.x ≤ 0 := by
    have h := side_eq_level (v f) (v (f + 1)) p hdCD.ne
    rw [sideAt] at hsf
    by_contra hpos
    push_neg at hpos
    have hneg := mul_neg_of_neg_of_pos hdCD hpos
    rw [← h] at hneg
    linarith
  rcases le_or_lt (v i).y p.y with hi | hi <;>
    rcases le_or_lt (v (i + 1)).y p.y with hj | hj
  · -- bottom block: both endpoints at or below the level
    have hrne : r ≠ i := fun h => absurd hr.2 (by rw [h]; exact not_lt.mpr hj)
    have hr1i : r + 1 ≠ i := fun h => absurd hr.2 (by
      have : (v i).y ≤ p.y := hi
      rw [← h] at this
      exact not_lt.mpr this)
    have hr1i1 : r + 1 ≠ i + 1 := fun h => hrne (add_right_cancel h)
    have hfne : f ≠ i := fun h => absurd hf.1 (by rw [h]; exact not_lt.mpr hi)
    have hfne1 : f ≠ i + 1 := fun h => absurd hf.1 (by rw [h]; exact not_lt.mpr hj)
    have eB : 0 < edgeSide (v i) (v (i + 1)) (v (r + 1)) :=
      hconv i (r + 1) hr1i hr1i1
    have eC : 0 < edgeSide (v i) (v (i + 1)) (v f) := hconv i f hfne hfne1
    have eA : 0 ≤ edgeSide (v i) (v (i + 1)) (v r) := by
      by_cases hri : r = i + 1
      · rw [hri, edgeSide_snd]
      · exact (hconv i r hrne hri).le
    have eD : 0 ≤ edgeSide (v i) (v (i + 1)) (v (f + 1)) := by
      by_cases h1 : f + 1 = i
      · rw [h1, edgeSide_fst]
      · by_cases h2 : f + 1 = i + 1
        · rw [h2, edgeSide_snd]
        · exact (hconv i (f + 1) h1 h2).le
    rcases lt_trichotomy (v i).y (v (i + 1)).y with hEF | hEF | hEF
    · -- ascending edge in the bottom block
      have hlev := edgeSide_level (v i) (v (i + 1)) p
        (comb ((p.y - (v r).y) / ((v (r + 1)).y - (v r).y)) (v r) (v (r + 1)))
        hsy.symm
      have hcombo : 0 ≤ edgeSide (v i) (v (i + 1))
          (comb ((p.y - (v r).y) / ((v (r + 1)).y - (v r).y)) (v r) (v (r + 1))) := by
        rw [edgeSide_comb]
        have g1 := mul_nonneg (by linarith : (0 : ℚ) ≤ 1 - (p.y - (v r).y) / ((v (r + 1)).y - (v r).y)) eA
        have g2 := mul_nonneg hs0 eB.le
        linarith
      have hterm : 0 < ((v (i + 1)).y - (v i).y)
          * ((comb ((p.y - (v r).y) / ((v (r + 1)).y - (v r).y)) (v r) (v (r + 1))).x - p.x) :=
        mul_pos (by linarith) hPr
      rw [sideAt]
      linarith
    · -- horizontal edge in the bottom block
      have hfx : 0 < (v (i + 1)).x - (v i).x := by
        have he : edgeSide (v i) (v (i + 1)) (v f)
            = ((v (i + 1)).x - (v i).x) * ((v f).y - (v i).y) := by
          rw [edgeSide, ← hEF]
          ring
        rcases mul_pos_iff.mp (he ▸ eC) with ⟨hx, -⟩ | ⟨-, hy2⟩
        · exact hx
        · have := hf.1
          linarith
      have he2 : sideAt v p i = ((v (i + 1)).x - (v i).x) * (p.y - (v i).y) := by
        rw [sideAt, edgeSide, ← hEF]
        ring
      rw [he2]
      exact mul_nonneg hfx.le (by linarith)
    · -- descending edge in the bottom block
      have hlev := edgeSide_level (v i) (v (i + 1)) p
        (comb ((p.y - (v f).y) / ((v (f + 1)).y - (v f).y)) (v f) (v (f + 1)))
        hty.symm
      have hcombo : 0 ≤ edgeSide (v i) (v (i + 1))
          (comb ((p.y - (v f).y) / ((v (f + 1)).y - (v f).y)) (v f) (v (f + 1))) := by
        rw [edgeSide_comb]
        have g1 := mul_nonneg (by linarith : (0 : ℚ) ≤ 1 - (p.y - (v f).y) / ((v (f + 1)).y - (v f).y)) eC.le
        have g2 := mul_nonneg ht0.le eD
        linarith
      have hterm : 0 ≤ ((v (i + 1)).y - (v i).y)
          * ((comb ((p.y - (v f).y) / ((v (f + 1)).y - (v f).y)) (v f) (v (f + 1))).x - p.x) :=
        mul_nonneg_iff.mpr (Or.inr ⟨by linarith, hPf⟩)
      rw [sideAt]
      linarith
  · -- upward straddling edge: it must be the edge r, already known
    have : i = r := upEdge_unique v p h3 hconv ⟨hi, hj⟩ hr
    rw [this]
    exact hsr.le
  · -- downward straddling edge: it must be the edge f
    have : i = f := downEdge_unique v p h3 hconv ⟨hi, hj⟩ hf
    rw [this]
    exact hsf
  · -- top block: both endpoints strictly above the level
    have hrne : r ≠ i := fun h => absurd hi (by rw [← h]; exact not_lt.mpr hr.1)
    have hrne1 : r ≠ i + 1 := fun h => absurd hj (by rw [← h]; exact not_lt.mpr hr.1)
    have hfne : f ≠ i := fun h => absurd hj (by
      have := hf.2
      rw [h] at this
      exact not_lt.mpr this)
    have hf1ne : f + 1 ≠ i := fun h => absurd hi (by rw [← h]; exact not_lt.mpr hf.2)
    have hf1ne1 : f + 1 ≠ i + 1 := fun h => hfne (add_right_cancel h)
    have eA : 0 < edgeSide (v i) (v (i + 1)) (v r) := hconv i r hrne hrne1
    have eD : 0 < edgeSide (v i) (v (i + 1)) (v (f + 1)) :=
      hconv i (f + 1) hf1ne hf1ne1
    have eB : 0 ≤ edgeSide (v i) (v (i + 1)) (v (r + 1)) := by
      by_cases h1 : r + 1 = i
      · rw [h1, edgeSide_fst]
      · by_cases h2 : r + 1 = i + 1
        · exact absurd (add_right_cancel h2) hrne
        · exact (hconv i (r + 1) h1 h2).le
    have eC : 0 ≤ edgeSide (v i) (v (i + 1)) (v f) := by
      by_cases h1 : f = i + 1
      · rw [h1, edgeSide_snd]
      · exact (hconv i f hfne h1).le
    rcases lt_trichotomy (v i).y (v (i + 1)).y with hEF | hEF | hEF
    · -- ascending edge in the top block
      have hlev := edgeSide_level (v i) (v (i + 1)) p
        (comb ((p.y - (v r).y) / ((v (r + 1)).y - (v r).y)) (v r) (v (r + 1)))
        hsy.symm
      have hcombo : 0 < edgeSide (v i) (v (i + 1))
          (comb ((p.y - (v r).y) / ((v (r + 1)).y - (v r).y)) (v r) (v (r + 1))) := by
        rw [edgeSide_comb]
        have g1 := mul_pos (by linarith : (0 : ℚ) < 1 - (p.y - (v r).y) / ((v (r + 1)).y - (v r).y)) eA
        have g2 := mul_nonneg hs0 eB
        linarith
      have hterm : 0 < ((v (i + 1)).y - (v i).y)
          * ((comb ((p.y - (v r).y) / ((v (r + 1)).y - (v r).y)) (v r) (v (r + 1))).x - p.x) :=
        mul_pos (by linarith) hPr
      rw [sideAt]
      linarith
    · -- horizontal edge in the top block
      have hfx : (v (i + 1)).x - (v i).x < 0 := by
        have he : edgeSide (v i) (v (i + 1)) (v r)
            = ((v (i + 1)).x - (v i).x) * ((v r).y - (v i).y) := by
          rw [edgeSide, ← hEF]
          ring
        rcases mul_pos_iff.mp (he ▸ eA) with ⟨-, hy2⟩ | ⟨hx, -⟩
        · have := hr.1
          linarith
        · exact hx
      have he2 : sideAt v p i = ((v (i + 1)).x - (v i).x) * (p.y - (v i).y) := by
        rw [sideAt, edgeSide, ← hEF]
        ring
      rw [he2]
      exact (mul_pos_of_neg_of_neg hfx (by linarith)).le
    · -- descending edge in the top block
      have hlev := edgeSide_level (v i) (v (i + 1)) p
        (comb ((p.y - (v f).y) / ((v (f + 1)).y - (v f).y)) (v f) (v (f + 1)))
        hty.symm
      have hcombo : 0 < edgeSide (v i) (v (i + 1))
          (comb ((p.y - (v f).y) / ((v (f + 1)).y - (v f).y)) (v f) (v (f + 1))) := by
        rw [edgeSide_comb]
        have g1 := mul_nonneg (by linarith : (0 : ℚ) ≤ 1 - (p.y - (v f).y) / ((v (f + 1)).y - (v f).y)) eC
        have g2 := mul_pos ht0 eD
        linarith
      have hterm : 0 ≤ ((v (i + 1)).y - (v i).y)
          * ((comb ((p.y - (v f).y) / ((v (f + 1)).y - (v f).y)) (v f) (v (f + 1))).x - p.x) :=
        mul_nonneg_iff.mpr (Or.inr ⟨by linarith, hPf⟩)
      rw [sideAt]
      linarith


/-- The downward edge meets the level weakly left of the upward edge (the
upward edge is the right boundary of a counter-clockwise convex cycle). -/
theorem level_points_order {n : ℕ} (v : ZMod n → Pt) (p : Pt)
    (hconv : convexCCW v) {r f : ZMod n}
    (hr : upEdge v p r) (hf : downEdge v p f) :
    (comb ((p.y - (v f).y) / ((v (f + 1)).y - (v f).y)) (v f) (v (f + 1))).x
      ≤ (comb ((p.y - (v r).y) / ((v (r + 1)).y - (v r).y)) (v r) (v (r + 1))).x := by
  obtain ⟨hs0, hs1, hsy⟩ := comb_up_mem (v r) (v (r + 1)) p.y hr.1 hr.2
  obtain ⟨ht0, ht1, hty⟩ := comb_down_mem (v f) (v (f + 1)) p.y hf.1 hf.2
  have hdCD : (v (f + 1)).y - (v f).y < 0 := by
    have := hf.1; have := hf.2; linarith
  have hrf : r ≠ f := fun h => absurd hf.1 (by rw [← h]; exact not_lt.mpr hr.1)
  have eSA : 0 ≤ edgeSide (v f) (v (f + 1)) (v r) := by
    by_cases h1 : r = f + 1
    · rw [h1, edgeSide_snd]
    · exact (hconv f r hrf h1).le
  have eSB : 0 ≤ edgeSide (v f) (v (f + 1)) (v (r + 1)) := by
    by_cases h1 : r + 1 = f
    · rw [h1, edgeSide_fst]
    · by_cases h2 : r + 1 = f + 1
      · exact absurd (add_right_cancel h2) hrf
      · exact (hconv f (r + 1) h1 h2).le
  have hcombo : 0 ≤ edgeSide (v f) (v (f + 1))
      (comb ((p.y - (v r).y) / ((v (r + 1)).y - (v r).y)) (v r) (v (r + 1))) := by
    rw [edgeSide_comb]
    have g1 := mul_nonneg (by linarith : (0 : ℚ) ≤ 1 - (p.y - (v r).y) / ((v (r + 1)).y - (v r).y)) eSA
    have g2 := mul_nonneg hs0 eSB
    linarith
  have hlev := edgeSide_level (v f) (v (f + 1))
    (comb ((p.y - (v r).y) / ((v (r + 1)).y - (v r).y)) (v r) (v (r + 1)))
    (comb ((p.y - (v f).y) / ((v (f + 1)).y - (v f).y)) (v f) (v (f + 1)))
    (by rw [hsy, hty])
  rw [edgeSide_comb_self] at hlev
  by_contra hcon
  push_neg at hcon
  have := mul_neg_of_neg_of_pos hdCD (by linarith :
    (0 : ℚ) < (comb ((p.y - (v f).y) / ((v (f + 1)).y - (v f).y)) (v f) (v (f + 1))).x
      - (comb ((p.y - (v r).y) / ((v (r + 1)).y - (v r).y)) (v r) (v (r + 1))).x)
  linarith

/-- A point strictly right of some edge of the strictly convex cycle is
crossed by an even number of edges. -/
theorem crossCount_exterior {n : ℕ} [NeZero n] (v : ZMod n → Pt) (p : Pt)
    (h3 : 3 ≤ n) (hconv : convexCCW v)
    (hout : ∃ k, sideAt v p k < 0) : crossCount n v p % 2 = 0 := by
  by_cases hT : ∃ i, p.y < (v i).y
  · by_cases hF : ∃ i, (v i).y ≤ p.y
    · obtain ⟨r, hr1, hr2⟩ := cyclic_exists_rise (fun i => p.y < (v i).y) hT
        (by obtain ⟨k, hk⟩ := hF; exact ⟨k, not_lt.mpr hk⟩)
      obtain ⟨f, hf1, hf2⟩ := cyclic_exists_fall (fun i => p.y < (v i).y) hT
        (by obtain ⟨k, hk⟩ := hF; exact ⟨k, not_lt.mpr hk⟩)
      have hup : upEdge v p r := ⟨not_lt.mp hr1, hr2⟩
      have hdn : downEdge v p f := ⟨hf1, not_lt.mp hf2⟩
      have hrf : r ≠ f := fun h => absurd hdn.1 (by rw [← h]; exact not_lt.mpr hup.1)
      have hdAB : 0 < (v (r + 1)).y - (v r).y := by
        have := hup.1; have := hup.2; linarith
      have hdCD : (v (f + 1)).y - (v f).y < 0 := by
        have := hdn.1; have := hdn.2; linarith
      have hiff : 0 < sideAt v p r ↔ sideAt v p f < 0 := by
        constructor
        · intro hsr
          by_contra hcon
          push_neg at hcon
          have hall := slab_weak_inside v p h3 hconv hup hdn hsr hcon
          obtain ⟨k, hk⟩ := hout
          exact absurd (hall k) (not_le.mpr hk)
        · intro hsf
          have hPf : 0 < (comb ((p.y - (v f).y) / ((v (f + 1)).y - (v f).y))
              (v f) (v (f + 1))).x - p.x := by
            have h := side_eq_level (v f) (v (f + 1)) p hdCD.ne
            rw [sideAt] at hsf
            rcases mul_neg_iff.mp (h ▸ hsf) with ⟨hd2, hx⟩ | ⟨hd2, hx⟩
            · linarith
            · linarith
          have horder := level_points_order v p hconv hup hdn
          have h := side_eq_level (v r) (v (r + 1)) p hdAB.ne.symm
          rw [sideAt, h]
          exact mul_pos hdAB (by linarith)
      by_cases hsr : 0 < sideAt v p r
      · have hsf := hiff.mp hsr
        have hfilter : ((Finset.univ : Finset (ZMod n)).filter
            fun i => crossQ p (v i) (v (i + 1)) = true) = {r, f} := by
          ext i
          simp only [Finset.mem_filter, Finset.mem_univ, true_and,
            Finset.mem_insert, Finset.mem_singleton]
          rw [crossQ_classify]
          constructor
          · rintro (⟨hu, -⟩ | ⟨hd, -⟩)
            · exact Or.inl (upEdge_unique v p h3 hconv hu hup)
            · exact Or.inr (downEdge_unique v p h3 hconv hd hdn)
          · rintro (rfl | rfl)
            · exact Or.inl ⟨hup, hsr⟩
            · exact Or.inr ⟨hdn, hsf⟩
        rw [crossCount, hfilter, Finset.card_pair hrf]
      · have hsf : ¬ sideAt v p f < 0 := fun h => hsr (hiff.mpr h)
        have hfilter : ((Finset.univ : Finset (ZMod n)).filter
            fun i => crossQ p (v i) (v (i + 1)) = true) = ∅ := by
          ext i
          simp only [Finset.mem_filter, Finset.mem_univ, true_and,
            Finset.not_mem_empty, iff_false]
          rw [crossQ_classify]
          rintro (⟨hu, hs⟩ | ⟨hd, hs⟩)
          · exact hsr (by rw [upEdge_unique v p h3 hconv hup hu] at hsr ⊢; exact hs)
          · exact hsf (by rw [downEdge_unique v p h3 hconv hdn hd] at hsf ⊢; exact hs)
        rw [crossCount, hfilter, Finset.card_empty]
    · push_neg at hF
      have hfilter : ((Finset.univ : Finset (ZMod n)).filter
          fun i => crossQ p (v i) (v (i + 1)) = true) = ∅ := by
        ext i
        simp only [Finset.mem_filter, Finset.mem_univ, true_and,
          Finset.not_mem_empty, iff_false]
        rw [crossQ_not_straddle p (v i) (v (i + 1))
          (iff_of_true (hF i) (hF (i + 1)))]
        exact fun h => by cases h
      rw [crossCount, hfilter, Finset.card_empty]
  · push_neg at hT
    have hfilter : ((Finset.univ : Finset (ZMod n)).filter
        fun i => crossQ p (v i) (v (i + 1)) = true) = ∅ := by
      ext i
      simp only [Finset.mem_filter, Finset.mem_univ, true_and,
        Finset.not_mem_empty, iff_false]
      rw [crossQ_not_straddle p (v i) (v (i + 1))
        (iff_of_false (not_lt.mpr (hT i)) (not_lt.mpr (hT (i + 1))))]
      exact fun h => by cases h
    rw [crossCount, hfilter, Finset.card_empty]


/-! ### Clockwise polygons, by reversing the cyclic order -/

theorem crossCount_neg {n : ℕ} [NeZero n] (v : ZMod n → Pt) (p : Pt) :
    crossCount n (fun i : ZMod n => v (-i)) p = crossCount n v p := by
  rw [crossCount, crossCount]
  refine Finset.card_nbij' (fun i => -i - 1) (fun j => -j - 1) ?_ ?_ ?_ ?_
  · intro a ha
    rw [Finset.mem_filter] at ha ⊢
    refine ⟨Finset.mem_univ _, ?_⟩
    show crossQ p (v (-a - 1)) (v (-a - 1 + 1)) = true
    rw [show (-a - 1 + 1 : ZMod n) = -a by ring, crossQ_symm,
      show (-a - 1 : ZMod n) = -(a + 1) by ring]
    exact ha.2
  · intro a ha
    rw [Finset.mem_filter] at ha ⊢
    refine ⟨Finset.mem_univ _, ?_⟩
    show crossQ p (v (-(-a - 1))) (v (-(-a - 1 + 1))) = true
    rw [show (-(-a - 1) : ZMod n) = a + 1 by ring,
      show (-(-a - 1 + 1) : ZMod n) = a by ring, crossQ_symm]
    exact ha.2
  · intro a _
    show -(-a - 1) - 1 = a
    ring
  · intro a _
    show -(-a - 1) - 1 = a
    ring

theorem convexCW_neg {n : ℕ} (v : ZMod n → Pt) (h : convexCW v) :
    convexCCW (fun i : ZMod n => v (-i)) := by
  intro i j hj1 hj2
  have hc := h (-(i + 1)) (-j)
    (fun e => hj2 (neg_inj.mp e))
    (by rw [show -(i + 1) + 1 = -i by ring]; exact fun e => hj1 (neg_inj.mp e))
  rw [show -(i + 1) + 1 = -i by ring] at hc
  rw [edgeSide_swap (v (-(i + 1))) (v (-i)) (v (-j))]
  linarith

theorem sideAt_neg {n : ℕ} (v : ZMod n → Pt) (p : Pt) (i : ZMod n) :
    sideAt (fun k : ZMod n => v (-k)) p i = -sideAt v p (-(i + 1)) := by
  rw [sideAt, sideAt]
  rw [show (-(i + 1) + 1 : ZMod n) = -i by ring]
  rw [edgeSide_swap (v (-(i + 1))) (v (-i)) p]

theorem crossCount_interior_cw {n : ℕ} [NeZero n] (v : ZMod n → Pt) (p : Pt)
    (h3 : 3 ≤ n) (hconv : convexCW v) (hin : ∀ i, sideAt v p i < 0) :
    crossCount n v p = 1 := by
  rw [← crossCount_neg v p]
  refine crossCount_interior _ p h3 (convexCW_neg v hconv) (fun i => ?_)
  rw [sideAt_neg]
  have := hin (-(i + 1))
  linarith

theorem crossCount_exterior_cw {n : ℕ} [NeZero n] (v : ZMod n → Pt) (p : Pt)
    (h3 : 3 ≤ n) (hconv : convexCW v) (hout : ∃ k, 0 < sideAt v p k) :
    crossCount n v p % 2 = 0 := by
  rw [← crossCount_neg v p]
  refine crossCount_exterior _ p h3 (convexCW_neg v hconv) ?_
  obtain ⟨k, hk⟩ := hout
  refine ⟨-k - 1, ?_⟩
  rw [sideAt_neg, show -(-k - 1 + 1) = k by ring]
  linarith

/-! ### Bridge from `Point.in_polygon` to the cyclic crossing count -/

/-- Toggling an accumulator once per satisfied element computes the parity
of the count. -/
theorem foldl_toggle {α : Type} (l : List α) (f : α → Bool) (acc : Bool) :
    l.foldl (fun b a => if f a then !b else b) acc
      = xor acc (decide (Odd (l.countP f))) := by
  induction l generalizing acc with
  | nil => simp
  | cons a l ih =>
    rw [List.foldl_cons, ih, List.countP_cons]
    by_cases h : f a = true
    · rw [if_pos h, if_pos h]
      have hodd : decide (Odd (l.countP f + 1)) = !decide (Odd (l.countP f)) := by
        by_cases ho : Odd (l.countP f)
        · simp [ho, Nat.odd_add_one]
        · simp [ho, Nat.odd_add_one]
      rw [hodd]
      rcases Bool.eq_false_or_eq_true acc with h1 | h1 <;>
        rcases Bool.eq_false_or_eq_true (decide (Odd (l.countP f))) with h2 | h2 <;>
          simp [h1, h2]
    · rw [if_neg h]
      have h0 : f a = false := by
        rw [← Bool.not_eq_true]
        exact h
      simp [h0]

/-- The cyclic vertex map of a vertex list. -/
def vtx (poly : List Pt) : ZMod poly.length → Pt :=
  fun i => poly.getD i.val ⟨0, 0⟩

theorem countP_range_eq_card_filter (n : ℕ) (g : ℕ → Bool) :
    (List.range n).countP g = ((Finset.range n).filter (fun k => g k = true)).card := by
  induction n with
  | zero => rfl
  | succ n ih =>
    rw [List.range_succ, List.countP_append, Finset.range_succ, Finset.filter_insert]
    by_cases h : g n = true
    · rw [if_pos h, Finset.card_insert_of_not_mem (fun hmem =>
        absurd (Finset.mem_range.mp (Finset.mem_filter.mp hmem).1) (lt_irrefl n)), ← ih]
      simp [h]
    · rw [if_neg h, ← ih]
      simp [h]

theorem card_filter_range_eq_univ {n : ℕ} [NeZero n] (P : ZMod n → Prop)
    [DecidablePred P] :
    ((Finset.range n).filter (fun k : ℕ => P (Nat.cast k))).card
      = ((Finset.univ : Finset (ZMod n)).filter P).card := by
  refine Finset.card_nbij (fun k : ℕ => (Nat.cast k : ZMod n)) ?_ ?_ ?_
  · intro a ha
    rw [Finset.mem_filter] at ha ⊢
    exact ⟨Finset.mem_univ _, ha.2⟩
  · intro a ha b hb hab
    rw [Finset.mem_coe, Finset.mem_filter, Finset.mem_range] at ha hb
    have ha2 := ZMod.val_cast_of_lt (n := n) ha.1
    have hb2 := ZMod.val_cast_of_lt (n := n) hb.1
    dsimp only at hab
    rw [← ha2, ← hb2, hab]
  · intro z hz
    rw [Finset.mem_coe, Finset.mem_filter] at hz
    refine ⟨z.val, ?_, ZMod.natCast_rightInverse z⟩
    rw [Finset.mem_coe, Finset.mem_filter, Finset.mem_range]
    refine ⟨ZMod.val_lt z, ?_⟩
    rw [ZMod.natCast_rightInverse z]
    exact hz.2

theorem card_prev_eq_crossCount {n : ℕ} [NeZero n] (v : ZMod n → Pt) (p : Pt) :
    ((Finset.univ : Finset (ZMod n)).filter
        (fun i => crossQ p (v i) (v (i - 1)) = true)).card
      = crossCount n v p := by
  rw [crossCount]
  refine Finset.card_nbij' (fun i => i - 1) (fun j => j + 1) ?_ ?_ ?_ ?_
  · intro a ha
    rw [Finset.mem_filter] at ha ⊢
    refine ⟨Finset.mem_univ _, ?_⟩
    rw [show a - 1 + 1 = a by ring, crossQ_symm]
    exact ha.2
  · intro a ha
    rw [Finset.mem_filter] at ha ⊢
    refine ⟨Finset.mem_univ _, ?_⟩
    rw [show a + 1 - 1 = a by ring, crossQ_symm]
    exact ha.2
  · intro a _
    ring
  · intro a _
    ring

theorem zmod_sub_one_val (n : ℕ) [NeZero n] (i : ℕ) (h : i < n) :
    (((Nat.cast i : ZMod n) - 1).val) = if i = 0 then n - 1 else i - 1 := by
  rcases n with - | m
  · exact absurd rfl (NeZero.ne 0)
  · by_cases h0 : i = 0
    · subst h0
      rw [if_pos rfl]
      have h1 : ((Nat.cast 0 : ZMod (m + 1)) - 1) = -1 := by
        rw [Nat.cast_zero]
        ring
      rw [h1, ZMod.val_neg_one]
      omega
    · rw [if_neg h0]
      have h1 : 1 ≤ i := Nat.one_le_iff_ne_zero.mpr h0
      have h2 : ((Nat.cast i : ZMod (m + 1)) - 1) = (Nat.cast (i - 1) : ZMod (m + 1)) := by
        push_cast [h1]
        ring
      rw [h2, ZMod.val_cast_of_lt (by omega)]

theorem in_polygon_eq_crossCount (poly : List Pt) (p : Pt)
    [NeZero poly.length] :
    p.in_polygon poly
      = decide (Odd (crossCount poly.length (vtx poly) p)) := by
  rw [Pt.in_polygon]
  rw [foldl_toggle (List.range poly.length)
    (fun i => crossQ p (poly.getD i ⟨0, 0⟩)
      (poly.getD (if i = 0 then poly.length - 1 else i - 1) ⟨0, 0⟩)) false]
  rw [Bool.false_xor]
  have hcong : (List.range poly.length).countP
      (fun i => crossQ p (poly.getD i ⟨0, 0⟩)
        (poly.getD (if i = 0 then poly.length - 1 else i - 1) ⟨0, 0⟩))
      = (List.range poly.length).countP
        (fun i : ℕ => crossQ p (vtx poly (Nat.cast i))
          (vtx poly ((Nat.cast i) - 1))) := by
    refine List.countP_congr (fun i hi => ?_)
    rw [List.mem_range] at hi
    rw [vtx, vtx, ZMod.val_cast_of_lt hi, zmod_sub_one_val poly.length i hi]
  rw [hcong]
  rw [countP_range_eq_card_filter poly.length
    (fun i : ℕ => crossQ p (vtx poly (Nat.cast i)) (vtx poly ((Nat.cast i) - 1)))]
  have h3 := card_filter_range_eq_univ
    (fun i : ZMod poly.length => crossQ p (vtx poly i) (vtx poly (i - 1)) = true)
  rw [h3, card_prev_eq_crossCount]


/-- **C5** (confirmed).  For a polygon in strict convex position (listed
counter-clockwise or clockwise), `Point.in_polygon` returns `true` at
every point strictly interior (strictly on the inner side of every edge
— the half-plane description of a convex polygon) and `false` at every
point strictly exterior (strictly on the outer side of some edge).
Boundary points are excluded: on them the ray-casting formula's strict
inequalities give a deterministic but unspecified answer, which is all
the claim asserts about them. -/
theorem c5_in_polygon_convex (poly : List Pt) (p : Pt)
    (h3 : 3 ≤ poly.length) :
    (convexCCW (vtx poly) →
      ((∀ i, 0 < sideAt (vtx poly) p i) → p.in_polygon poly = true)
      ∧ ((∃ i, sideAt (vtx poly) p i < 0) → p.in_polygon poly = false))
    ∧ (convexCW (vtx poly) →
      ((∀ i, sideAt (vtx poly) p i < 0) → p.in_polygon poly = true)
      ∧ ((∃ i, 0 < sideAt (vtx poly) p i) → p.in_polygon poly = false)) := by
  haveI : NeZero poly.length := ⟨by omega⟩
  refine ⟨fun hconv => ⟨fun hin => ?_, fun hout => ?_⟩,
    fun hconv => ⟨fun hin => ?_, fun hout => ?_⟩⟩
  · rw [in_polygon_eq_crossCount, crossCount_interior (vtx poly) p h3 hconv hin]
    decide
  · rw [in_polygon_eq_crossCount]
    have h := crossCount_exterior (vtx poly) p h3 hconv hout
    rw [decide_eq_false_iff_not, Nat.odd_iff]
    omega
  · rw [in_polygon_eq_crossCount, crossCount_interior_cw (vtx poly) p h3 hconv hin]
    decide
  · rw [in_polygon_eq_crossCount]
    have h := crossCount_exterior_cw (vtx poly) p h3 hconv hout
    rw [decide_eq_false_iff_not, Nat.odd_iff]
    omega

/-- A counter-clockwise unit test square. -/
def sqCCW : List Pt := [⟨0, 0⟩, ⟨2, 0⟩, ⟨2, 2⟩, ⟨0, 2⟩]

/-- Witness for C5: the square, an interior and an exterior point. -/
theorem c5_in_polygon_convex_witness :
    Pt.in_polygon ⟨1, 1⟩ sqCCW = true ∧ Pt.in_polygon ⟨3, 1⟩ sqCCW = false := by
  haveI : NeZero sqCCW.length := ⟨by decide⟩
  have hconv : convexCCW (vtx sqCCW) := by
    intro i j h1 h2
    fin_cases i <;> fin_cases j <;>
      first
        | exact absurd rfl h1
        | exact absurd rfl h2
        | exact show (0 : ℚ) < edgeSide ⟨0, 0⟩ ⟨2, 0⟩ ⟨2, 2⟩ by rw [edgeSide]; norm_num
        | exact show (0 : ℚ) < edgeSide ⟨0, 0⟩ ⟨2, 0⟩ ⟨0, 2⟩ by rw [edgeSide]; norm_num
        | exact show (0 : ℚ) < edgeSide ⟨2, 0⟩ ⟨2, 2⟩ ⟨0, 2⟩ by rw [edgeSide]; norm_num
        | exact show (0 : ℚ) < edgeSide ⟨2, 0⟩ ⟨2, 2⟩ ⟨0, 0⟩ by rw [edgeSide]; norm_num
        | exact show (0 : ℚ) < edgeSide ⟨2, 2⟩ ⟨0, 2⟩ ⟨0, 0⟩ by rw [edgeSide]; norm_num
        | exact show (0 : ℚ) < edgeSide ⟨2, 2⟩ ⟨0, 2⟩ ⟨2, 0⟩ by rw [edgeSide]; norm_num
        | exact show (0 : ℚ) < edgeSide ⟨0, 2⟩ ⟨0, 0⟩ ⟨2, 0⟩ by rw [edgeSide]; norm_num
        | exact show (0 : ℚ) < edgeSide ⟨0, 2⟩ ⟨0, 0⟩ ⟨2, 2⟩ by rw [edgeSide]; norm_num
  have hin : ∀ i, 0 < sideAt (vtx sqCCW) (⟨1, 1⟩ : Pt) i := by
    intro i
    fin_cases i <;>
      first
        | exact show (0 : ℚ) < edgeSide ⟨0, 0⟩ ⟨2, 0⟩ ⟨1, 1⟩ by rw [edgeSide]; norm_num
        | exact show (0 : ℚ) < edgeSide ⟨2, 0⟩ ⟨2, 2⟩ ⟨1, 1⟩ by rw [edgeSide]; norm_num
        | exact show (0 : ℚ) < edgeSide ⟨2, 2⟩ ⟨0, 2⟩ ⟨1, 1⟩ by rw [edgeSide]; norm_num
        | exact show (0 : ℚ) < edgeSide ⟨0, 2⟩ ⟨0, 0⟩ ⟨1, 1⟩ by rw [edgeSide]; norm_num
  have hout : ∃ i, sideAt (vtx sqCCW) (⟨3, 1⟩ : Pt) i < 0 :=
    ⟨1, show edgeSide ⟨2, 0⟩ ⟨2, 2⟩ ⟨3, 1⟩ < 0 by rw [edgeSide]; norm_num⟩
  exact ⟨((c5_in_polygon_convex sqCCW ⟨1, 1⟩ (by decide)).1 hconv).1 hin,
    ((c5_in_polygon_convex sqCCW ⟨3, 1⟩ (by decide)).1 hconv).2 hout⟩

end Phantom
